import Mathlib

/-!
Verification development for the binary emission backend `src/wasm-gen.c`
of the wabt repository (event-driven wasm binary writer).

The C code is shallowly embedded: the growable output buffer becomes a
list of byte values (naturals, reduced mod 256 at each 8-bit write) plus
an explicit `size` field; machine-integer casts become explicit `% 2^w`;
the event handlers become pure state-passing functions on the buffer.
Opcode byte values live in `wasm.h`, which is not part of the sources;
they are carried as an explicit parameter record `Opcodes`, since no
property below depends on their numeric values.
-/

namespace WasmGen

/-- Little-endian bytes of a value truncated to 16 bits
    (models the C cast to `uint16_t` followed by a 2-byte write). -/
def u16le (v : Nat) : List Nat := [v % 256, v / 256 % 256]

/-- Little-endian bytes of a value truncated to 32 bits
    (models the C cast to `uint32_t` followed by a 4-byte write). -/
def u32le (v : Nat) : List Nat :=
  [v % 256, v / 256 % 256, v / 65536 % 256, v / 16777216 % 256]

/-- Byte of the buffer at index `i` (0 when out of range). -/
def byteAt (l : List Nat) (i : Nat) : Nat := l.getD i 0

/-- The `n`-byte slice of `l` starting at `p`. -/
def listSlice (l : List Nat) (p n : Nat) : List Nat := (l.drop p).take n

/-- Little-endian 32-bit read-back of four buffer bytes at `p`. -/
def readU32 (l : List Nat) (p : Nat) : Nat :=
  byteAt l p + 256 * byteAt l (p + 1) + 65536 * byteAt l (p + 2) +
    16777216 * byteAt l (p + 3)

/-- `out_leb128`'s byte sequence: low 7 bits first, continuation bit 0x80
    on every byte except the last (the do/while loop in `out_leb128`). -/
def leb128 (v : Nat) : List Nat :=
  if v < 128 then [v]
  else (v % 128 + 128) :: leb128 (v / 128)
  decreasing_by exact Nat.div_lt_self (by omega) (by omega)

/-- Decoder for the base-128 continuation-bit encoding (the inverse the
    spec's round-trip property refers to). -/
def leb128Decode : List Nat → Nat
  | [] => 0
  | b :: rest => b % 128 + 128 * leb128Decode rest

/-- Bits needed to write `v` in binary; `0` still needs one digit. -/
def bitsNeeded (v : Nat) : Nat := if v = 0 then 1 else Nat.size v

/-- The output buffer (`struct OutputBuffer`): the written storage as a
    list of bytes plus the current logical `size`. Capacity handling in
    the C code (geometric growth, copying realloc) is observationally
    invisible and is abstracted away. -/
structure OutputBuffer where
  data : List Nat
  size : Nat
deriving Repr, DecidableEq

/-- The `memcpy` into the (capacity-ensured) storage performed by
    `out_data`: overwrite `l` at `offset` with `src`, extending on the
    right when the write reaches past the end. Callers guarantee
    `offset ≤ l.length` (the C `assert(offset <= buf->size)`). -/
def writeBytes (l : List Nat) (offset : Nat) (src : List Nat) : List Nat :=
  l.take offset ++ src ++ l.drop (offset + src.length)

/-- `out_data`: write `src` at `offset`, return the buffer (whose `size`
    field is untouched, exactly as in C) with the new end offset. -/
def out_data (buf : OutputBuffer) (offset : Nat) (src : List Nat) :
    OutputBuffer × Nat :=
  (⟨writeBytes buf.data offset src, buf.size⟩, offset + src.length)

/-- Append `src` at the end and advance `size` — the common
    `buf->size = out_data(buf, buf->size, ...)` pattern of the
    appending writers (`out_u8` .. `out_f64`, `out_leb128`, `out_cstr`). -/
def appendList (buf : OutputBuffer) (src : List Nat) : OutputBuffer :=
  let (b, n) := out_data buf buf.size src
  ⟨b.data, n⟩

/-- `out_u8`: append one byte (C truncates the argument to `uint8_t`). -/
def out_u8 (buf : OutputBuffer) (v : Nat) : OutputBuffer :=
  appendList buf [v % 256]

/-- `out_u16`: append a little-endian 16-bit value. -/
def out_u16 (buf : OutputBuffer) (v : Nat) : OutputBuffer :=
  appendList buf (u16le v)

/-- `out_u32`: append a little-endian 32-bit value. -/
def out_u32 (buf : OutputBuffer) (v : Nat) : OutputBuffer :=
  appendList buf (u32le v)

/-- `out_u8_at`: patch one byte at `offset`; `size` is not changed. -/
def out_u8_at (buf : OutputBuffer) (offset v : Nat) : OutputBuffer :=
  (out_data buf offset [v % 256]).1

/-- `out_u32_at`: patch four little-endian bytes at `offset`;
    `size` is not changed. -/
def out_u32_at (buf : OutputBuffer) (offset v : Nat) : OutputBuffer :=
  (out_data buf offset (u32le v)).1

/-- `out_leb128`: append the base-128 encoding. -/
def out_leb128 (buf : OutputBuffer) (v : Nat) : OutputBuffer :=
  appendList buf (leb128 v)

/-- `out_cstr`: append the name bytes followed by the 0 terminator
    (`strlen(s) + 1` bytes). -/
def out_cstr (buf : OutputBuffer) (s : List Nat) : OutputBuffer :=
  appendList buf (s ++ [0])

/-- `out_segment`: append the segment's raw initializer bytes verbatim
    (`wasm_copy_segment_data` decodes exactly `segment->size` bytes,
    modelled as the segment's byte list). -/
def out_segment (buf : OutputBuffer) (data : List Nat) : OutputBuffer :=
  appendList buf data

/-- The opcode byte values from `wasm.h` (not among the sources); every
    property below is independent of their concrete values. -/
structure Opcodes where
  BLOCK : Nat
  LOOP : Nat
  IF : Nat
  IF_THEN : Nat
  NOP : Nat
  CALL : Nat
  BREAK : Nat
  I8_CONST : Nat
deriving Repr

/-- `out_opcode`: append the opcode byte (C casts the enum to `uint8_t`). -/
def out_opcode (buf : OutputBuffer) (op : Nat) : OutputBuffer :=
  out_u8 buf op

/-- A concrete sample assignment of opcode byte values, used only to
    instantiate concrete runs; no theorem depends on the choice. -/
def sampleOpcodes : Opcodes :=
  ⟨1, 2, 3, 4, 0, 12, 6, 9⟩

example : leb128 300 = [172, 2] := by simp [leb128]
example : leb128Decode (leb128 300) = 300 := by simp [leb128, leb128Decode]
example : u32le 300 = [44, 1, 0, 0] := by decide
example : readU32 (u32le 300) 0 = 300 := by decide

/-! ## Module shape (read-only input AST, from `wasm.h`'s structures as
used by `wasm-gen.c`) -/

/-- A global or local variable: only its value type matters here. -/
structure WasmVariable where
  type : Nat
deriving Repr, DecidableEq

/-- An import: argument types, result type, name bytes. -/
structure WasmImport where
  args : List WasmVariable
  result_type : Nat
  func_name : List Nat
deriving Repr, DecidableEq

/-- A declared function. `locals` lists all locals; the first `num_args`
    entries are the arguments (as in `wasm-gen.c`, which reads argument
    types from `locals.data[0..num_args)`). -/
structure WasmFunction where
  num_args : Nat
  locals : List WasmVariable
  result_type : Nat
  exported : Bool
  exported_name : List Nat
deriving Repr, DecidableEq

/-- A data segment: target address and raw initializer bytes
    (`segment->size` equals the byte count, modelled as `data.length`). -/
structure WasmSegment where
  address : Nat
  data : List Nat
deriving Repr, DecidableEq

/-- The module shape consumed by the generator. -/
structure WasmModule where
  max_memory_size : Nat
  globals : List WasmVariable
  imports : List WasmImport
  functions : List WasmFunction
  segments : List WasmSegment
deriving Repr, DecidableEq

/-! ## Layout constants (the macros at the top of `wasm-gen.c`) -/

def GLOBAL_HEADERS_OFFSET : Nat := 8
def GLOBAL_HEADER_SIZE : Nat := 6
def FUNC_HEADERS_OFFSET (num_globals : Nat) : Nat :=
  GLOBAL_HEADERS_OFFSET + num_globals * GLOBAL_HEADER_SIZE
def FUNC_HEADER_SIZE (num_args : Nat) : Nat := 24 + num_args
def SEGMENT_HEADER_SIZE : Nat := 13
def FUNC_SIG_SIZE (num_args : Nat) : Nat := 2 + num_args
def FUNC_HEADER_NAME_OFFSET (num_args : Nat) : Nat := FUNC_SIG_SIZE num_args
def FUNC_HEADER_CODE_START_OFFSET (num_args : Nat) : Nat :=
  FUNC_SIG_SIZE num_args + 4
def FUNC_HEADER_CODE_END_OFFSET (num_args : Nat) : Nat :=
  FUNC_SIG_SIZE num_args + 8
def FUNC_HEADER_EXPORTED_OFFSET (num_args : Nat) : Nat :=
  FUNC_SIG_SIZE num_args + 20
def SEGMENT_HEADER_DATA_OFFSET : Nat := 4

/-! ## Layout planner (`before_module`) -/

/-- The running-offset loop of `before_module`: record the current
    offset for each record, then advance by that record's size. -/
def headerOffsets : Nat → List Nat → List Nat
  | _, [] => []
  | off, s :: rest => off :: headerOffsets (off + s) rest

/-- Offset of the first import header = end of the global headers
    (`FUNC_HEADERS_OFFSET(module->globals.size)`). -/
def importHeadersStart (m : WasmModule) : Nat :=
  FUNC_HEADERS_OFFSET m.globals.length

/-- Offset just past the import headers (the "skip past the import
    headers" loop of `before_module`). -/
def funcHeadersStart (m : WasmModule) : Nat :=
  importHeadersStart m +
    (m.imports.map (fun i => FUNC_HEADER_SIZE i.args.length)).sum

/-- `ctx->function_header_offsets` as computed by `before_module`. -/
def function_header_offsets (m : WasmModule) : List Nat :=
  headerOffsets (funcHeadersStart m)
    (m.functions.map (fun f => FUNC_HEADER_SIZE f.num_args))

/-- Offset just past the declared-function headers, where the segment
    headers begin. -/
def segHeadersStart (m : WasmModule) : Nat :=
  funcHeadersStart m +
    (m.functions.map (fun f => FUNC_HEADER_SIZE f.num_args)).sum

/-- `ctx->segment_header_offsets` as computed by `before_module`. -/
def segment_header_offsets (m : WasmModule) : List Nat :=
  headerOffsets (segHeadersStart m)
    (m.segments.map (fun _ => SEGMENT_HEADER_SIZE))

/-- Offset just past the segment headers: the end of the fixed header
    region emitted by `out_module_header`. -/
def segHeadersEnd (m : WasmModule) : Nat :=
  segHeadersStart m + m.segments.length * SEGMENT_HEADER_SIZE

/-! ## `out_module_header` -/

/-- `log_two_u32`: 0 for 0, else the ceiling of log2 (the C computes
    `32 - __builtin_clz(x-1)`, i.e. the bit-size of `x - 1`). -/
def log_two_u32 (x : Nat) : Nat :=
  if x = 0 then 0 else Nat.size (x - 1)

/-- The `global_type_codes` table `{-1, 4, 6, 8, 9}` (the `-1` entry is
    the `uint8_t` 255). -/
def global_type_codes : Nat → Nat
  | 0 => 255
  | 1 => 4
  | 2 => 6
  | 3 => 8
  | 4 => 9
  | _ => 0

def DEFAULT_MEMORY_EXPORT : Nat := 1

/-- The WASM_TYPE enum ordinals from `wasm.h` (not among the sources):
    the order is fixed by the 5-entry `global_type_codes` table and the
    i32/i64/f32/f64 local-count order used in `out_module_header`. -/
def WASM_TYPE_I32 : Nat := 1
def WASM_TYPE_I64 : Nat := 2
def WASM_TYPE_F32 : Nat := 3
def WASM_TYPE_F64 : Nat := 4

/-- The module preamble: mem-size log2, memory-export flag, and the
    three 16-bit counts. -/
def module_preamble (m : WasmModule) : List Nat :=
  [log_two_u32 m.max_memory_size % 256, DEFAULT_MEMORY_EXPORT] ++
    u16le m.globals.length ++
    u16le (m.imports.length + m.functions.length) ++
    u16le m.segments.length

/-- One global header record (6 bytes). -/
def global_header (g : WasmVariable) : List Nat :=
  u32le 0 ++ [global_type_codes g.type % 256, 0]

/-- One import header record (`24 + argc` bytes, external flag 1). -/
def import_header (imp : WasmImport) : List Nat :=
  [imp.args.length % 256, imp.result_type % 256] ++
    imp.args.map (fun a => a.type % 256) ++
    u32le 0 ++ u32le 0 ++ u32le 0 ++
    u16le 0 ++ u16le 0 ++ u16le 0 ++ u16le 0 ++ [0, 1]

/-- Count of non-argument locals of type `t` (`num_locals[t]`). -/
def countLocals (f : WasmFunction) (t : Nat) : Nat :=
  ((f.locals.drop f.num_args).filter (fun v => v.type = t)).length

/-- One declared-function header record (`24 + num_args` bytes,
    external flag 0). -/
def function_header (f : WasmFunction) : List Nat :=
  [f.num_args % 256, f.result_type % 256] ++
    (f.locals.take f.num_args).map (fun a => a.type % 256) ++
    u32le 0 ++ u32le 0 ++ u32le 0 ++
    u16le (countLocals f WASM_TYPE_I32) ++
    u16le (countLocals f WASM_TYPE_I64) ++
    u16le (countLocals f WASM_TYPE_F32) ++
    u16le (countLocals f WASM_TYPE_F64) ++ [0, 0]

/-- One segment header record (13 bytes). -/
def segment_header (s : WasmSegment) : List Nat :=
  u32le s.address ++ u32le 0 ++ u32le s.data.length ++ [1]

/-- The whole fixed header region emitted by `out_module_header`. -/
def out_module_header (m : WasmModule) : List Nat :=
  module_preamble m ++
    (m.globals.map global_header).flatten ++
    (m.imports.map import_header).flatten ++
    (m.functions.map function_header).flatten ++
    (m.segments.map segment_header).flatten

/-- `before_module` followed by `out_module_header`: fresh buffer holding
    exactly the fixed header region. -/
def moduleOpenBuffer (m : WasmModule) : OutputBuffer :=
  ⟨out_module_header m, (out_module_header m).length⟩

/-! ## Event handlers -/

/-- `before_function`: patch the header's code-start field to the current
    end, emit the implicit top-level `BLOCK` opcode, then the one-byte
    count placeholder; the placeholder's offset is the value the C code
    stores in `ctx->function_num_exprs_offset`, returned here. -/
def before_function (ops : Opcodes) (hdrOff num_args : Nat)
    (b : OutputBuffer) : OutputBuffer × Nat :=
  let b1 := out_u32_at b (hdrOff + FUNC_HEADER_CODE_START_OFFSET num_args)
    b.size
  let b2 := out_opcode b1 ops.BLOCK
  let cookie := b2.size
  (out_u8 b2 0, cookie)

/-- `after_function`: patch the saved count placeholder with `num_exprs`
    (a `uint8_t` store), then patch the header's code-end field to the
    current end. -/
def after_function (hdrOff num_args num_exprs cookie : Nat)
    (b : OutputBuffer) : OutputBuffer :=
  let b1 := out_u8_at b cookie num_exprs
  out_u32_at b1 (hdrOff + FUNC_HEADER_CODE_END_OFFSET num_args) b1.size

/-- `after_export`: patch the function header's exported flag to 1. -/
def after_export (hdrOff num_args : Nat) (b : OutputBuffer) : OutputBuffer :=
  out_u8_at b (hdrOff + FUNC_HEADER_EXPORTED_OFFSET num_args) 1

/-- `before_block`: emit the `BLOCK` opcode, capture the placeholder's
    offset as the cookie, append the one-byte count placeholder. -/
def before_block (ops : Opcodes) (b : OutputBuffer) : OutputBuffer × Nat :=
  let b1 := out_opcode b ops.BLOCK
  let cookie := b1.size
  (out_u8 b1 0, cookie)

/-- `after_block`: patch the count placeholder at the cookie
    (a `uint8_t` store of `num_exprs`). -/
def after_block (num_exprs cookie : Nat) (b : OutputBuffer) : OutputBuffer :=
  out_u8_at b cookie num_exprs

/-- `before_loop`: same pattern as `before_block` with the `LOOP` opcode. -/
def before_loop (ops : Opcodes) (b : OutputBuffer) : OutputBuffer × Nat :=
  let b1 := out_opcode b ops.LOOP
  let cookie := b1.size
  (out_u8 b1 0, cookie)

/-- `after_loop`: patch the count placeholder at the cookie. -/
def after_loop (num_exprs cookie : Nat) (b : OutputBuffer) : OutputBuffer :=
  out_u8_at b cookie num_exprs

/-- `before_label`: a labeled region opens with the `BLOCK` opcode and the
    same placeholder pattern. -/
def before_label (ops : Opcodes) (b : OutputBuffer) : OutputBuffer × Nat :=
  let b1 := out_opcode b ops.BLOCK
  let cookie := b1.size
  (out_u8 b1 0, cookie)

/-- `after_label`: patch the count placeholder at the cookie. -/
def after_label (num_exprs cookie : Nat) (b : OutputBuffer) : OutputBuffer :=
  out_u8_at b cookie num_exprs

/-- `before_if`: capture the offset of the opcode byte about to be
    emitted, then emit the `IF` (alternate-absent) opcode. -/
def before_if (ops : Opcodes) (b : OutputBuffer) : OutputBuffer × Nat :=
  let cookie := b.size
  (out_opcode b ops.IF, cookie)

/-- `after_if`: when an alternate branch was present, patch the captured
    opcode byte to `IF_THEN`; otherwise do nothing. -/
def after_if (ops : Opcodes) (with_else : Bool) (cookie : Nat)
    (b : OutputBuffer) : OutputBuffer :=
  if with_else then out_u8_at b cookie ops.IF_THEN else b

/-- `after_break`: `BREAK` opcode plus one depth byte. -/
def after_break (ops : Opcodes) (depth : Nat) (b : OutputBuffer) :
    OutputBuffer :=
  out_u8 (out_opcode b ops.BREAK) depth

/-- `before_call`: `CALL` opcode, then the LEB128 of the function index
    remapped past the imports. -/
def before_call (ops : Opcodes) (num_imports function_index : Nat)
    (b : OutputBuffer) : OutputBuffer :=
  out_leb128 (out_opcode b ops.CALL) (num_imports + function_index)

/-- `before_call_import`: `CALL` opcode, then the LEB128 of the import
    index unchanged. -/
def before_call_import (ops : Opcodes) (import_index : Nat)
    (b : OutputBuffer) : OutputBuffer :=
  out_leb128 (out_opcode b ops.CALL) import_index

/-- `after_nop`: the `NOP` opcode. -/
def after_nop (ops : Opcodes) (b : OutputBuffer) : OutputBuffer :=
  out_opcode b ops.NOP

/-- The `uint8_t` cast of a signed value (`out_u8(buf, value.i32)`). -/
def intLowByte (v : Int) : Nat := (v % 256).toNat

/-- The `uint32_t` reinterpretation of a signed 32-bit value
    (`out_u32(buf, value.i32)`). -/
def i32ToNat (v : Int) : Nat := (v % 4294967296).toNat

/-- The `WASM_TYPE_I32` arm of `after_const`: values in `[-128, 127)` use
    the compact `I8_CONST` one-operand-byte form, everything else the
    full-width opcode plus 4-byte operand. -/
def after_const_i32 (ops : Opcodes) (opcode : Nat) (v : Int)
    (b : OutputBuffer) : OutputBuffer :=
  if -128 ≤ v ∧ v < 127 then
    out_u8 (out_opcode b ops.I8_CONST) (intLowByte v)
  else
    appendList (out_opcode b opcode) (u32le (i32ToNat v))

/-! ## The driving traversal for expression bodies

The parser (outside the sources) drives the engine with nested
open/close events; its nesting is modelled by the syntax tree below. A
`leaf` covers any event that only appends bytes (constants, calls,
operators, no-ops, ...). -/

mutual
inductive Expr where
  | leaf : List Nat → Expr
  | block : ExprList → Expr
  | loopE : ExprList → Expr
  | labelE : ExprList → Expr
deriving Repr

inductive ExprList where
  | nil : ExprList
  | cons : Expr → ExprList → ExprList
deriving Repr
end

/-- Number of top-level expressions in a list. -/
def ExprList.length : ExprList → Nat
  | .nil => 0
  | .cons _ rest => 1 + rest.length

mutual
/-- Emit one expression: leaves append their bytes; block/loop/label
    regions run the open handler, emit their children, and close with
    the child count — exactly the caller-held-cookie protocol. -/
def emitExpr (ops : Opcodes) : Expr → OutputBuffer → OutputBuffer
  | .leaf bs, b => appendList b bs
  | .block es, b =>
      let p := before_block ops b
      after_block es.length p.2 (emitList ops es p.1)
  | .loopE es, b =>
      let p := before_loop ops b
      after_loop es.length p.2 (emitList ops es p.1)
  | .labelE es, b =>
      let p := before_label ops b
      after_label es.length p.2 (emitList ops es p.1)

/-- Emit a list of expressions in order. -/
def emitList (ops : Opcodes) : ExprList → OutputBuffer → OutputBuffer
  | .nil, b => b
  | .cons e rest, b => emitList ops rest (emitExpr ops e b)
end

/-! ## `out_module_footer` -/

/-- The segment loop of `out_module_footer`: for each segment (paired
    with its planned header offset), patch the header's data-offset field
    to the current end, then append the raw segment bytes. -/
def footerSegments : OutputBuffer → List (Nat × WasmSegment) → OutputBuffer
  | b, [] => b
  | b, (hdr, seg) :: rest =>
      footerSegments
        (out_segment (out_u32_at b (hdr + SEGMENT_HEADER_DATA_OFFSET) b.size)
          seg.data) rest

/-- One entry of the name loop: argument count of the header record,
    whether a name is emitted, and the name bytes. -/
def nameEntries (m : WasmModule) : List (Nat × Bool × List Nat) :=
  m.imports.map (fun i => (i.args.length, true, i.func_name)) ++
    m.functions.map (fun f => (f.num_args, f.exported, f.exported_name))

/-- The name-table loops of `out_module_footer`, threading the running
    header offset: the C import loop emits unconditionally (entries with
    flag `true`), the function loop only for exported functions. -/
def footerNames : OutputBuffer → Nat → List (Nat × Bool × List Nat) →
    OutputBuffer
  | b, _, [] => b
  | b, off, (nargs, emit, name) :: rest =>
      footerNames
        (if emit then
          out_cstr (out_u32_at b (off + FUNC_HEADER_NAME_OFFSET nargs) b.size)
            name
        else b)
        (off + FUNC_HEADER_SIZE nargs) rest

/-- `out_module_footer`: segment payloads (with data-offset fixups), then
    the name table (with name-offset fixups), starting the name loop at
    `FUNC_HEADERS_OFFSET(module->globals.size)`. -/
def out_module_footer (m : WasmModule) (b : OutputBuffer) : OutputBuffer :=
  footerNames (footerSegments b ((segment_header_offsets m).zip m.segments))
    (importHeadersStart m) (nameEntries m)

/-! ## Basic buffer lemmas -/

theorem writeBytes_length {l src : List Nat} {offset : Nat}
    (h : offset + src.length ≤ l.length) :
    (writeBytes l offset src).length = l.length := by
  simp only [writeBytes, List.length_append, List.length_take,
    List.length_drop]
  omega

theorem writeBytes_length_ge (l src : List Nat) (offset : Nat) :
    l.length ≤ (writeBytes l offset src).length := by
  simp only [writeBytes, List.length_append, List.length_take,
    List.length_drop]
  omega

theorem byteAt_append_left {l m : List Nat} {i : Nat} (h : i < l.length) :
    byteAt (l ++ m) i = byteAt l i := by
  simp [byteAt, List.getD_eq_getElem?_getD, List.getElem?_append_left h]

theorem byteAt_append_right {l m : List Nat} {i : Nat} (h : l.length ≤ i) :
    byteAt (l ++ m) i = byteAt m (i - l.length) := by
  simp [byteAt, List.getD_eq_getElem?_getD, List.getElem?_append_right h]

theorem byteAt_take {l : List Nat} {n i : Nat} (h : i < n) :
    byteAt (l.take n) i = byteAt l i := by
  simp [byteAt, List.getD_eq_getElem?_getD, List.getElem?_take, h]

theorem writeBytes_byteAt_left {l src : List Nat} {offset q : Nat}
    (hq : q < offset) (hoff : offset ≤ l.length) :
    byteAt (writeBytes l offset src) q = byteAt l q := by
  have h1 : (l.take offset).length = offset := List.length_take_of_le hoff
  rw [writeBytes, byteAt_append_left (by simp [h1]; omega),
    byteAt_append_left (by rw [h1]; exact hq), byteAt_take hq]

theorem writeBytes_byteAt_right {l src : List Nat} {offset q : Nat}
    (hq : offset + src.length ≤ q) (hoff : offset ≤ l.length) :
    byteAt (writeBytes l offset src) q = byteAt l q := by
  have h1 : (l.take offset).length = offset := List.length_take_of_le hoff
  have h2 : (l.take offset ++ src).length = offset + src.length := by
    simp [h1]
  rw [writeBytes, byteAt_append_right (by omega), h2]
  simp only [byteAt, List.getD_eq_getElem?_getD, List.getElem?_drop]
  congr 2
  omega

theorem writeBytes_byteAt_src {l src : List Nat} {offset k : Nat}
    (hk : k < src.length) (hoff : offset ≤ l.length) :
    byteAt (writeBytes l offset src) (offset + k) = byteAt src k := by
  have h1 : (l.take offset).length = offset := List.length_take_of_le hoff
  rw [writeBytes, byteAt_append_left (by simp [h1]; omega),
    byteAt_append_right (by omega), h1, Nat.add_sub_cancel_left]

theorem writeBytes_slice {l src : List Nat} {offset : Nat}
    (hoff : offset ≤ l.length) :
    listSlice (writeBytes l offset src) offset src.length = src := by
  have h1 : (l.take offset).length = offset := List.length_take_of_le hoff
  rw [writeBytes, listSlice, List.append_assoc, List.drop_left' h1,
    List.take_left]

theorem listSlice_append_left {l m : List Nat} {p n : Nat}
    (h : p + n ≤ l.length) :
    listSlice (l ++ m) p n = listSlice l p n := by
  rw [listSlice, listSlice, List.drop_append_of_le_length (by omega),
    List.take_append_of_le_length (by simp; omega)]

theorem listSlice_append_self (l m : List Nat) :
    listSlice (l ++ m) l.length m.length = m := by
  rw [listSlice, List.drop_left, List.take_length]

theorem appendList_data {b : OutputBuffer} (src : List Nat)
    (h : b.data.length = b.size) :
    (appendList b src).data = b.data ++ src := by
  simp [appendList, out_data, writeBytes, ← h, List.take_length,
    List.drop_eq_nil_of_le (by omega : b.data.length ≤ b.data.length + _)]

theorem appendList_size (b : OutputBuffer) (src : List Nat) :
    (appendList b src).size = b.size + src.length := rfl

theorem out_u32_at_size (b : OutputBuffer) (offset v : Nat) :
    (out_u32_at b offset v).size = b.size := rfl

theorem out_u8_at_size (b : OutputBuffer) (offset v : Nat) :
    (out_u8_at b offset v).size = b.size := rfl

theorem listSlice_eq_of_byteAt {l l' : List Nat} {p n : Nat}
    (h1 : p + n ≤ l.length) (h2 : p + n ≤ l'.length)
    (h : ∀ k < n, byteAt l' (p + k) = byteAt l (p + k)) :
    listSlice l' p n = listSlice l p n := by
  have hl : (listSlice l p n).length = n := by
    simp [listSlice]; omega
  have hl' : (listSlice l' p n).length = n := by
    simp [listSlice]; omega
  apply List.ext_getElem (by omega)
  intro i hi hi'
  have hin : i < n := by omega
  have e1 : (listSlice l' p n)[i] = byteAt l' (p + i) := by
    simp only [listSlice, List.getElem_take, List.getElem_drop, byteAt]
    rw [List.getD_eq_getElem _ _ (by omega)]
  have e2 : (listSlice l p n)[i] = byteAt l (p + i) := by
    simp only [listSlice, List.getElem_take, List.getElem_drop, byteAt]
    rw [List.getD_eq_getElem _ _ (by omega)]
  rw [e1, e2, h i hin]

/-! ## The patch-then-append loop shape shared by the two footer loops -/

/-- Both footer loops repeat one step: patch a 4-byte field (at an offset
    inside the already-written header region) with the current end of
    the buffer, then append a payload block there. -/
def patchAppendLoop : OutputBuffer → List (Nat × List Nat) → OutputBuffer
  | b, [] => b
  | b, (p, blk) :: rest =>
      patchAppendLoop (appendList (out_u32_at b p b.size) blk) rest

/-- Total number of bytes the loop appends. -/
def stepsLen (steps : List (Nat × List Nat)) : Nat :=
  (steps.map (fun s => s.2.length)).sum

theorem u32le_length (v : Nat) : (u32le v).length = 4 := rfl

theorem stepsLen_nil : stepsLen [] = 0 := rfl

theorem stepsLen_cons (s : Nat × List Nat) (rest : List (Nat × List Nat)) :
    stepsLen (s :: rest) = s.2.length + stepsLen rest := by
  simp [stepsLen]

theorem patchAppend_step {b : OutputBuffer} {p : Nat} (blk : List Nat)
    (hlen : b.data.length = b.size) (hp : p + 4 ≤ b.size) :
    (appendList (out_u32_at b p b.size) blk).data =
        writeBytes b.data p (u32le b.size) ++ blk ∧
      (appendList (out_u32_at b p b.size) blk).size = b.size + blk.length ∧
      (writeBytes b.data p (u32le b.size)).length = b.size := by
  have hw : (writeBytes b.data p (u32le b.size)).length = b.data.length :=
    writeBytes_length (by rw [u32le_length]; omega)
  refine ⟨?_, rfl, by omega⟩
  refine appendList_data blk ?_
  show (writeBytes b.data p (u32le b.size)).length = b.size
  rw [hw, hlen]

theorem patchAppendLoop_size :
    ∀ (steps : List (Nat × List Nat)) (b : OutputBuffer),
      b.data.length = b.size → (∀ s ∈ steps, s.1 + 4 ≤ b.size) →
      (patchAppendLoop b steps).size = b.size + stepsLen steps ∧
        (patchAppendLoop b steps).data.length = (patchAppendLoop b steps).size
  | [], b, hlen, _ => by simp [patchAppendLoop, stepsLen_nil, hlen]
  | (p, blk) :: rest, b, hlen, hin => by
      have hp : p + 4 ≤ b.size := hin (p, blk) (List.mem_cons_self _ _)
      obtain ⟨hd, hs, hwl⟩ := patchAppend_step blk hlen hp
      set b1 := appendList (out_u32_at b p b.size) blk with hb1
      have hlen1 : b1.data.length = b1.size := by
        rw [hd, hs, List.length_append, hwl]
      have hin1 : ∀ s ∈ rest, s.1 + 4 ≤ b1.size := fun s hs2 => by
        have := hin s (List.mem_cons_of_mem _ hs2)
        rw [hs]; omega
      have ih := patchAppendLoop_size rest b1 hlen1 hin1
      rw [patchAppendLoop]
      exact ⟨by rw [ih.1, hs, stepsLen_cons]; ring, ih.2⟩

theorem patchAppendLoop_frame :
    ∀ (steps : List (Nat × List Nat)) (b : OutputBuffer) (q : Nat),
      b.data.length = b.size → (∀ s ∈ steps, s.1 + 4 ≤ b.size) →
      q < b.size → (∀ s ∈ steps, q < s.1 ∨ s.1 + 4 ≤ q) →
      byteAt (patchAppendLoop b steps).data q = byteAt b.data q
  | [], b, q, _, _, _, _ => rfl
  | (p, blk) :: rest, b, q, hlen, hin, hq, hout => by
      have hp : p + 4 ≤ b.size := hin (p, blk) (List.mem_cons_self _ _)
      obtain ⟨hd, hs, hwl⟩ := patchAppend_step blk hlen hp
      set b1 := appendList (out_u32_at b p b.size) blk with hb1
      have hlen1 : b1.data.length = b1.size := by
        rw [hd, hs, List.length_append, hwl]
      have hin1 : ∀ s ∈ rest, s.1 + 4 ≤ b1.size := fun s hs2 => by
        have := hin s (List.mem_cons_of_mem _ hs2)
        rw [hs]; omega
      have hout1 : ∀ s ∈ rest, q < s.1 ∨ s.1 + 4 ≤ q := fun s hs2 =>
        hout s (List.mem_cons_of_mem _ hs2)
      have hq1 : q < b1.size := by rw [hs]; omega
      rw [patchAppendLoop,
        patchAppendLoop_frame rest b1 q hlen1 hin1 hq1 hout1, hd,
        byteAt_append_left (by rw [hwl]; omega)]
      rcases hout (p, blk) (List.mem_cons_self _ _) with h | h
      · exact writeBytes_byteAt_left h (by omega)
      · exact writeBytes_byteAt_right (by rw [u32le_length]; omega) (by omega)

theorem patchAppendLoop_field :
    ∀ (steps : List (Nat × List Nat)) (b : OutputBuffer) (i : Nat)
      (hi : i < steps.length),
      b.data.length = b.size → (∀ s ∈ steps, s.1 + 4 ≤ b.size) →
      steps.Pairwise (fun s t => s.1 + 4 ≤ t.1 ∨ t.1 + 4 ≤ s.1) →
      listSlice (patchAppendLoop b steps).data (steps.get ⟨i, hi⟩).1 4 =
        u32le (b.size + stepsLen (steps.take i))
  | (p, blk) :: rest, b, i, hi, hlen, hin, hdisj => by
      have hp : p + 4 ≤ b.size := hin (p, blk) (List.mem_cons_self _ _)
      obtain ⟨hd, hs, hwl⟩ := patchAppend_step blk hlen hp
      set b1 := appendList (out_u32_at b p b.size) blk with hb1
      have hlen1 : b1.data.length = b1.size := by
        rw [hd, hs, List.length_append, hwl]
      have hin1 : ∀ s ∈ rest, s.1 + 4 ≤ b1.size := fun s hs2 => by
        have := hin s (List.mem_cons_of_mem _ hs2)
        rw [hs]; omega
      have hdisj1 := (List.pairwise_cons.mp hdisj).2
      have hhead := (List.pairwise_cons.mp hdisj).1
      have hsz := patchAppendLoop_size rest b1 hlen1 hin1
      match i with
      | 0 =>
          have hslice1 : listSlice b1.data p 4 = u32le b.size := by
            rw [hd, listSlice_append_left (by rw [hwl]; omega),
              ← u32le_length b.size, writeBytes_slice (by omega)]
          have hframe : ∀ k < 4, byteAt (patchAppendLoop b1 rest).data (p + k) =
              byteAt b1.data (p + k) := fun k hk => by
            apply patchAppendLoop_frame rest b1 (p + k) hlen1 hin1
              (by rw [hs]; omega)
            intro s hs2
            rcases hhead s hs2 with h | h
            · exact Or.inl (by omega)
            · exact Or.inr (by omega)
          have := @listSlice_eq_of_byteAt b1.data
            (patchAppendLoop b1 rest).data p 4
            (by rw [hlen1, hs]; omega)
            (by rw [hsz.2, hsz.1, hs]; omega) hframe
          simp only [patchAppendLoop, List.get, List.take, stepsLen_nil]
          rw [this, hslice1, Nat.add_zero]
      | Nat.succ j =>
          have hj : j < rest.length := by
            simpa using hi
          have ih := patchAppendLoop_field rest b1 j hj hlen1 hin1 hdisj1
          simp only [patchAppendLoop, List.get, List.take]
          rw [ih, hs, stepsLen_cons]
          congr 1
          ring

theorem patchAppendLoop_payload :
    ∀ (steps : List (Nat × List Nat)) (b : OutputBuffer) (i : Nat)
      (hi : i < steps.length),
      b.data.length = b.size → (∀ s ∈ steps, s.1 + 4 ≤ b.size) →
      listSlice (patchAppendLoop b steps).data
          (b.size + stepsLen (steps.take i)) (steps.get ⟨i, hi⟩).2.length =
        (steps.get ⟨i, hi⟩).2
  | (p, blk) :: rest, b, i, hi, hlen, hin => by
      have hp : p + 4 ≤ b.size := hin (p, blk) (List.mem_cons_self _ _)
      obtain ⟨hd, hs, hwl⟩ := patchAppend_step blk hlen hp
      set b1 := appendList (out_u32_at b p b.size) blk with hb1
      have hlen1 : b1.data.length = b1.size := by
        rw [hd, hs, List.length_append, hwl]
      have hin1 : ∀ s ∈ rest, s.1 + 4 ≤ b1.size := fun s hs2 => by
        have := hin s (List.mem_cons_of_mem _ hs2)
        rw [hs]; omega
      have hsz := patchAppendLoop_size rest b1 hlen1 hin1
      match i with
      | 0 =>
          have hslice1 : listSlice b1.data b.size blk.length = blk := by
            have h2 := listSlice_append_self
              (writeBytes b.data p (u32le b.size)) blk
            rw [hwl] at h2
            rw [hd, h2]
          have hframe : ∀ k < blk.length,
              byteAt (patchAppendLoop b1 rest).data (b.size + k) =
                byteAt b1.data (b.size + k) := fun k hk => by
            apply patchAppendLoop_frame rest b1 (b.size + k) hlen1 hin1
              (by rw [hs]; omega)
            intro s hs2
            have := hin1 s hs2
            have := hin s (List.mem_cons_of_mem _ hs2)
            exact Or.inr (by omega)
          have := @listSlice_eq_of_byteAt b1.data
            (patchAppendLoop b1 rest).data b.size
            blk.length (by rw [hlen1, hs])
            (by rw [hsz.2, hsz.1, hs]; omega) hframe
          simp only [patchAppendLoop, List.get, List.take, stepsLen_nil]
          rw [Nat.add_zero, this, hslice1]
      | Nat.succ j =>
          have hj : j < rest.length := by
            simpa using hi
          have ih := patchAppendLoop_payload rest b1 j hj hlen1 hin1
          simp only [patchAppendLoop, List.get, List.take]
          rw [stepsLen_cons, show b.size + (blk.length +
            stepsLen (rest.take j)) = b1.size + stepsLen (rest.take j) by
              rw [hs]; ring]
          exact ih

/-! ## Planner lemmas -/

theorem headerOffsets_getElem? :
    ∀ (sizes : List Nat) (start i : Nat), i < sizes.length →
      (headerOffsets start sizes)[i]? = some (start + (sizes.take i).sum)
  | s :: rest, start, 0, _ => by simp [headerOffsets]
  | s :: rest, start, i + 1, hi => by
      simp only [headerOffsets, List.getElem?_cons_succ, List.take_succ_cons,
        List.sum_cons]
      rw [headerOffsets_getElem? rest (start + s) i (by simpa using hi)]
      congr 1
      ring

theorem headerOffsets_length :
    ∀ (start : Nat) (sizes : List Nat),
      (headerOffsets start sizes).length = sizes.length
  | _, [] => rfl
  | start, s :: rest => by
      simp [headerOffsets, headerOffsets_length (start + s) rest]

/-! ## LEB128 lemmas -/

theorem leb128_roundtrip : ∀ v : Nat, leb128Decode (leb128 v) = v := by
  intro v
  induction v using Nat.strong_induction_on with
  | _ v ih =>
    rw [leb128]
    by_cases h : v < 128
    · simp [h, leb128Decode, Nat.mod_eq_of_lt h]
    · simp only [h, if_false, leb128Decode,
        ih (v / 128) (Nat.div_lt_self (by omega) (by omega))]
      omega

theorem leb128_ne_nil (v : Nat) : leb128 v ≠ [] := by
  rw [leb128]
  by_cases h : v < 128 <;> simp [h]

theorem size_div128 (v : Nat) (h : 128 ≤ v) :
    Nat.size v = Nat.size (v / 128) + 7 := by
  have h1 : 1 ≤ v / 128 := by
    rw [Nat.le_div_iff_mul_le (by omega)]; omega
  set t := Nat.size (v / 128) with ht
  have ht1 : 1 ≤ t := by
    rw [ht]
    exact Nat.size_pos.mpr (by omega)
  have hub : v / 128 < 2 ^ t := Nat.lt_size_self _
  have hlb : 2 ^ (t - 1) ≤ v / 128 := by
    by_contra hc
    push_neg at hc
    have : Nat.size (v / 128) ≤ t - 1 := Nat.size_le.mpr hc
    omega
  have hub2 : v < 2 ^ (t + 7) := by
    have hv : v < 128 * (v / 128) + 128 := by
      have := Nat.mod_lt v (show 0 < 128 by omega)
      have := Nat.div_add_mod v 128
      omega
    have h2 : 128 * (v / 128) + 128 ≤ 128 * 2 ^ t := by
      have : v / 128 + 1 ≤ 2 ^ t := hub
      nlinarith
    calc v < 128 * (v / 128) + 128 := hv
    _ ≤ 128 * 2 ^ t := h2
    _ = 2 ^ (t + 7) := by rw [pow_add]; ring
  have hlb2 : 2 ^ (t + 6) ≤ v := by
    have h3 : 128 * 2 ^ (t - 1) ≤ 128 * (v / 128) :=
      Nat.mul_le_mul_left _ hlb
    have h4 : v / 128 * 128 ≤ v := Nat.div_mul_le_self v 128
    have h5 : 2 ^ (t + 6) = 128 * 2 ^ (t - 1) := by
      have : t - 1 + 7 = t + 6 := by omega
      rw [← this, pow_add]
      ring
    omega
  have hle : Nat.size v ≤ t + 7 := Nat.size_le.mpr hub2
  have hgt : t + 6 < Nat.size v := Nat.lt_size.mpr hlb2
  omega

theorem leb128_length_eq (v : Nat) :
    (leb128 v).length = (bitsNeeded v + 6) / 7 := by
  induction v using Nat.strong_induction_on with
  | _ v ih =>
    rw [leb128]
    by_cases h : v < 128
    · by_cases h0 : v = 0
      · simp [h0, bitsNeeded]
      · have h1 : 1 ≤ Nat.size v := Nat.size_pos.mpr (by omega)
        have h7 : Nat.size v ≤ 7 := Nat.size_le.mpr (by omega)
        simp only [h, if_true, List.length_singleton, bitsNeeded, h0,
          if_false]
        omega
    · have hrec := ih (v / 128) (Nat.div_lt_self (by omega) (by omega))
      have hsz := size_div128 v (by omega)
      have hv0 : v ≠ 0 := by omega
      have hd0 : v / 128 ≠ 0 := by
        have : 1 ≤ v / 128 := by
          rw [Nat.le_div_iff_mul_le (by omega)]; omega
        omega
      simp only [h, if_false, List.length_cons, hrec, bitsNeeded, hv0,
        hd0, if_false, hsz]
      omega

theorem leb128_length_le (v : Nat) (hv : v < 4294967296) :
    (leb128 v).length ≤ 5 := by
  rw [leb128_length_eq]
  by_cases h0 : v = 0
  · simp [h0, bitsNeeded]
  · have h1 : Nat.size v ≤ 32 := Nat.size_le.mpr (by omega)
    simp only [bitsNeeded, h0, if_false]
    omega

theorem leb128_continuation : ∀ v : Nat,
    (∀ i, i + 1 < (leb128 v).length → 128 ≤ byteAt (leb128 v) i) ∧
      byteAt (leb128 v) ((leb128 v).length - 1) < 128 := by
  intro v
  induction v using Nat.strong_induction_on with
  | _ v ih =>
    rw [leb128]
    by_cases h : v < 128
    · simp [h, byteAt]
    · have hrec := ih (v / 128) (Nat.div_lt_self (by omega) (by omega))
      have hne : (leb128 (v / 128)).length ≠ 0 := by
        simpa using leb128_ne_nil (v / 128)
      simp only [h, if_false]
      constructor
      · intro i hi
        match i with
        | 0 => simp [byteAt]
        | Nat.succ j =>
            have := hrec.1 j (by simpa using hi)
            simpa [byteAt] using this
      · have := hrec.2
        simp only [List.length_cons]
        rw [show (leb128 (v / 128)).length + 1 - 1 =
          ((leb128 (v / 128)).length - 1) + 1 by omega]
        simpa [byteAt] using this

/-! ## Append-sequence lemma -/

theorem foldl_appendList :
    ∀ (calls : List (List Nat)) (b : OutputBuffer),
      b.data.length = b.size →
      (calls.foldl appendList b).data = b.data ++ calls.flatten ∧
        (calls.foldl appendList b).size = b.size + calls.flatten.length
  | [], b, _ => by simp
  | c :: rest, b, hlen => by
      have hd := appendList_data (b := b) c hlen
      have hs := appendList_size b c
      have hlen1 : (appendList b c).data.length = (appendList b c).size := by
        rw [hd, hs, List.length_append, hlen]
      have ih := foldl_appendList rest (appendList b c) hlen1
      simp only [List.foldl_cons, List.flatten_cons]
      refine ⟨?_, ?_⟩
      · rw [ih.1, hd, List.append_assoc]
      · rw [ih.2, hs, List.length_append]
        ring

/-! ## Claim C1 -/

/-- A sample module shape used to instantiate witnesses: one global,
    one import with two arguments, two functions (1 and 3 arguments),
    and two segments. -/
def sampleModule : WasmModule :=
  ⟨1, [⟨1⟩], [⟨[⟨1⟩, ⟨2⟩], 1, [97]⟩],
    [⟨1, [⟨1⟩], 0, true, [109]⟩, ⟨3, [⟨1⟩, ⟨1⟩, ⟨1⟩], 1, false, []⟩],
    [⟨0, [1, 2, 3, 4]⟩, ⟨8, [5]⟩]⟩

/-- C1: the Layout Planner's offset tables are the closed-form prefix
    sums: the i-th declared function's header offset equals
    `8 + 6·G + Σⱼ (24 + aⱼ) + Σ_{k<i} (24 + bₖ)`, and the j-th segment
    header offset follows at 13-byte strides immediately after the last
    function header. The planner reads only declaration counts and
    argument counts, so the result is independent of instruction
    content. -/
theorem layout_planner_offset_table_closed_form (m : WasmModule) :
    (∀ i, i < m.functions.length →
      (function_header_offsets m)[i]? =
        some (8 + 6 * m.globals.length +
          (m.imports.map (fun im => 24 + im.args.length)).sum +
          ((m.functions.take i).map (fun f => 24 + f.num_args)).sum)) ∧
    (∀ j, j < m.segments.length →
      (segment_header_offsets m)[j]? =
        some (8 + 6 * m.globals.length +
          (m.imports.map (fun im => 24 + im.args.length)).sum +
          (m.functions.map (fun f => 24 + f.num_args)).sum + 13 * j)) := by
  constructor
  · intro i hi
    rw [function_header_offsets,
      headerOffsets_getElem? _ _ i (by simpa using hi)]
    congr 1
    rw [← List.map_take]
    simp only [funcHeadersStart, importHeadersStart, FUNC_HEADERS_OFFSET,
      GLOBAL_HEADERS_OFFSET, GLOBAL_HEADER_SIZE, FUNC_HEADER_SIZE]
    ring
  · intro j hj
    rw [segment_header_offsets,
      headerOffsets_getElem? _ _ j (by simpa using hj)]
    congr 1
    rw [← List.map_take]
    have hmin : (m.segments.take j).length = j :=
      List.length_take_of_le (by omega)
    simp only [segHeadersStart, funcHeadersStart, importHeadersStart,
      FUNC_HEADERS_OFFSET, GLOBAL_HEADERS_OFFSET, GLOBAL_HEADER_SIZE,
      FUNC_HEADER_SIZE, SEGMENT_HEADER_SIZE, List.map_const',
      List.sum_replicate, smul_eq_mul, hmin]
    ring

/-- Witness for C1 on `sampleModule`: function 1 sits at offset 65 and
    segment 1 at offset 105. -/
theorem layout_planner_offset_table_closed_form_witness :
    (function_header_offsets sampleModule)[1]? = some 65 ∧
      (segment_header_offsets sampleModule)[1]? = some 105 := by
  constructor
  · rw [(layout_planner_offset_table_closed_form sampleModule).1 1
      (by decide)]
    decide
  · rw [(layout_planner_offset_table_closed_form sampleModule).2 1
      (by decide)]
    decide

/-! ## Claim C2 -/

/-- C2: `out_leb128` appends the base-128 encoding of `v` (low 7 bits
    first, continuation bit on all bytes but the last); decoding
    reproduces `v`; the length is 1 byte for `v < 128`, at most 5 bytes
    for 32-bit values, and equals `⌈bits_needed(v)/7⌉`. -/
theorem out_leb128_base128_roundtrip (v : Nat) (hv : v < 4294967296)
    (b : OutputBuffer) (hb : b.data.length = b.size) :
    (out_leb128 b v).data = b.data ++ leb128 v ∧
      leb128Decode (leb128 v) = v ∧
      (v < 128 → (leb128 v).length = 1) ∧
      (leb128 v).length ≤ 5 ∧
      (leb128 v).length = (bitsNeeded v + 6) / 7 ∧
      (∀ i, i + 1 < (leb128 v).length → 128 ≤ byteAt (leb128 v) i) ∧
      byteAt (leb128 v) ((leb128 v).length - 1) < 128 := by
  refine ⟨appendList_data _ hb, leb128_roundtrip v, ?_,
    leb128_length_le v hv, leb128_length_eq v, (leb128_continuation v).1,
    (leb128_continuation v).2⟩
  intro hsmall
  rw [leb128]
  simp [hsmall]

/-- Witness for C2 at `v = 300` on the empty buffer. -/
theorem out_leb128_base128_roundtrip_witness :
    (out_leb128 ⟨[], 0⟩ 300).data = [] ++ leb128 300 ∧
      leb128Decode (leb128 300) = 300 :=
  ⟨(out_leb128_base128_roundtrip 300 (by omega) ⟨[], 0⟩ rfl).1,
    (out_leb128_base128_roundtrip 300 (by omega) ⟨[], 0⟩ rfl).2.1⟩

/-! ## Claim C3 -/

/-- C3: any sequence of appends leaves the buffer holding exactly the
    concatenation of the appended byte lists (and `size` equal to its
    length); a patch (`out_data` at `offset`, as used by `out_u8_at` and
    `out_u32_at`) never changes `size` or the storage length and changes
    no byte outside the targeted range, while writing exactly `src`
    inside it. -/
theorem output_buffer_append_concat_patch_frame
    (calls : List (List Nat)) (b : OutputBuffer) (off stride : Nat)
    (src : List Nat) (hoff : off + src.length ≤ b.size)
    (hlen : b.data.length = b.size) :
    (calls.foldl appendList ⟨[], 0⟩).data = calls.flatten ∧
      (calls.foldl appendList ⟨[], 0⟩).size = calls.flatten.length ∧
      (out_data b off src).1.size = b.size ∧
      (out_data b off src).1.data.length = b.data.length ∧
      (∀ j, j < off ∨ off + src.length ≤ j →
        byteAt (out_data b off src).1.data j = byteAt b.data j) ∧
      listSlice (out_data b off src).1.data off src.length = src ∧
      (out_u8_at b off stride).size = b.size ∧
      (out_u32_at b off stride).size = b.size := by
  have hfold := foldl_appendList calls ⟨[], 0⟩ rfl
  refine ⟨by simpa using hfold.1, by simpa using hfold.2, rfl,
    writeBytes_length (by omega), ?_, writeBytes_slice (by omega),
    rfl, rfl⟩
  intro j hj
  rcases hj with hj | hj
  · exact writeBytes_byteAt_left hj (by omega)
  · exact writeBytes_byteAt_right hj (by omega)

/-- Witness for C3: three appends on the empty buffer and a 2-byte patch
    at offset 1 of a 3-byte buffer. -/
theorem output_buffer_append_concat_patch_frame_witness :
    ([[1, 2], [3], []].foldl appendList ⟨[], 0⟩).data = [1, 2, 3] ∧
      (out_data ⟨[9, 9, 9], 3⟩ 1 [7, 7]).1.data = [9, 7, 7] ∧
      (out_data ⟨[9, 9, 9], 3⟩ 1 [7, 7]).1.size = 3 := by
  have h := output_buffer_append_concat_patch_frame
    [[1, 2], [3], []] ⟨[9, 9, 9], 3⟩ 1 5 [7, 7] (by decide) rfl
  exact ⟨by simpa using h.1, by decide, h.2.2.1⟩

/-! ## Handler step lemmas -/

theorem out_u8_spec (b : OutputBuffer) (v : Nat) (hb : b.data.length = b.size) :
    (out_u8 b v).data = b.data ++ [v % 256] ∧
      (out_u8 b v).size = b.size + 1 ∧
      (out_u8 b v).data.length = (out_u8 b v).size := by
  have hd := appendList_data (b := b) [v % 256] hb
  refine ⟨hd, rfl, ?_⟩
  show (appendList b [v % 256]).data.length = (appendList b [v % 256]).size
  rw [hd, appendList_size, List.length_append, hb]

theorem before_block_spec (ops : Opcodes) (b : OutputBuffer)
    (hb : b.data.length = b.size) :
    (before_block ops b).1.data = b.data ++ [ops.BLOCK % 256, 0] ∧
      (before_block ops b).1.size = b.size + 2 ∧
      (before_block ops b).2 = b.size + 1 ∧
      (before_block ops b).1.data.length = (before_block ops b).1.size := by
  obtain ⟨h1, h2, h3⟩ := out_u8_spec b ops.BLOCK hb
  obtain ⟨h4, h5, h6⟩ := out_u8_spec (out_u8 b ops.BLOCK) 0 h3
  refine ⟨?_, ?_, ?_, ?_⟩
  · show (out_u8 (out_u8 b ops.BLOCK) 0).data = _
    rw [h4, h1, List.append_assoc]
    rfl
  · show (out_u8 (out_u8 b ops.BLOCK) 0).size = _
    rw [h5, h2]
  · show (out_u8 b ops.BLOCK).size = _
    rw [h2]
  · exact h6

theorem before_loop_spec (ops : Opcodes) (b : OutputBuffer)
    (hb : b.data.length = b.size) :
    (before_loop ops b).1.data = b.data ++ [ops.LOOP % 256, 0] ∧
      (before_loop ops b).1.size = b.size + 2 ∧
      (before_loop ops b).2 = b.size + 1 ∧
      (before_loop ops b).1.data.length = (before_loop ops b).1.size := by
  obtain ⟨h1, h2, h3⟩ := out_u8_spec b ops.LOOP hb
  obtain ⟨h4, h5, h6⟩ := out_u8_spec (out_u8 b ops.LOOP) 0 h3
  refine ⟨?_, ?_, ?_, ?_⟩
  · show (out_u8 (out_u8 b ops.LOOP) 0).data = _
    rw [h4, h1, List.append_assoc]
    rfl
  · show (out_u8 (out_u8 b ops.LOOP) 0).size = _
    rw [h5, h2]
  · show (out_u8 b ops.LOOP).size = _
    rw [h2]
  · exact h6

theorem before_label_spec (ops : Opcodes) (b : OutputBuffer)
    (hb : b.data.length = b.size) :
    (before_label ops b).1.data = b.data ++ [ops.BLOCK % 256, 0] ∧
      (before_label ops b).1.size = b.size + 2 ∧
      (before_label ops b).2 = b.size + 1 ∧
      (before_label ops b).1.data.length = (before_label ops b).1.size :=
  before_block_spec ops b hb

/-- One-byte patch: value `n % 256` lands at `off`, nothing else moves. -/
theorem out_u8_at_spec (b : OutputBuffer) (off n : Nat)
    (hoff : off + 1 ≤ b.data.length) :
    byteAt (out_u8_at b off n).data off = n % 256 ∧
      (out_u8_at b off n).size = b.size ∧
      (out_u8_at b off n).data.length = b.data.length ∧
      (∀ j, j ≠ off → byteAt (out_u8_at b off n).data j = byteAt b.data j) := by
  refine ⟨?_, rfl, writeBytes_length (by simpa using hoff), ?_⟩
  · have := @writeBytes_byteAt_src b.data [n % 256] off 0
      (by simp) (by omega)
    simpa [byteAt] using this
  · intro j hj
    rcases Nat.lt_or_ge j off with h | h
    · exact writeBytes_byteAt_left h (by omega)
    · have : off + 1 ≤ j := by omega
      exact writeBytes_byteAt_right (by simpa using this) (by omega)

/-! ## Emission invariants for the traversal model -/

mutual
theorem emitExpr_inv (ops : Opcodes) : ∀ (e : Expr) (b : OutputBuffer),
    b.data.length = b.size →
    (emitExpr ops e b).data.length = (emitExpr ops e b).size ∧
      b.size ≤ (emitExpr ops e b).size ∧
      (∀ j, j < b.size →
        byteAt (emitExpr ops e b).data j = byteAt b.data j)
  | .leaf bs, b, hb => by
      have hd := appendList_data (b := b) bs hb
      have hs := appendList_size b bs
      refine ⟨?_, ?_, ?_⟩
      · show (appendList b bs).data.length = (appendList b bs).size
        rw [hd, hs, List.length_append, hb]
      · show b.size ≤ (appendList b bs).size
        rw [hs]; omega
      · intro j hj
        show byteAt (appendList b bs).data j = byteAt b.data j
        rw [hd, byteAt_append_left (by omega)]
  | .block es, b, hb => by
      obtain ⟨hd1, hs1, hc, hl1⟩ := before_block_spec ops b hb
      obtain ⟨hl2, hs2, hpre2⟩ :=
        emitList_inv ops es (before_block ops b).1 hl1
      have heq : emitExpr ops (.block es) b =
          out_u8_at (emitList ops es (before_block ops b).1)
            (before_block ops b).2 es.length := rfl
      obtain ⟨hbyte, hsz, hlen, hframe⟩ :=
        out_u8_at_spec (emitList ops es (before_block ops b).1)
          (before_block ops b).2 es.length
          (by rw [hl2, hc]; omega)
      rw [heq]
      refine ⟨by rw [hlen, hsz, hl2], by rw [hsz]; omega, ?_⟩
      intro j hj
      rw [hframe j (by omega), hpre2 j (by omega), hd1,
        byteAt_append_left (by omega)]
  | .loopE es, b, hb => by
      obtain ⟨hd1, hs1, hc, hl1⟩ := before_loop_spec ops b hb
      obtain ⟨hl2, hs2, hpre2⟩ :=
        emitList_inv ops es (before_loop ops b).1 hl1
      have heq : emitExpr ops (.loopE es) b =
          out_u8_at (emitList ops es (before_loop ops b).1)
            (before_loop ops b).2 es.length := rfl
      obtain ⟨hbyte, hsz, hlen, hframe⟩ :=
        out_u8_at_spec (emitList ops es (before_loop ops b).1)
          (before_loop ops b).2 es.length
          (by rw [hl2, hc]; omega)
      rw [heq]
      refine ⟨by rw [hlen, hsz, hl2], by rw [hsz]; omega, ?_⟩
      intro j hj
      rw [hframe j (by omega), hpre2 j (by omega), hd1,
        byteAt_append_left (by omega)]
  | .labelE es, b, hb => by
      obtain ⟨hd1, hs1, hc, hl1⟩ := before_label_spec ops b hb
      obtain ⟨hl2, hs2, hpre2⟩ :=
        emitList_inv ops es (before_label ops b).1 hl1
      have heq : emitExpr ops (.labelE es) b =
          out_u8_at (emitList ops es (before_label ops b).1)
            (before_label ops b).2 es.length := rfl
      obtain ⟨hbyte, hsz, hlen, hframe⟩ :=
        out_u8_at_spec (emitList ops es (before_label ops b).1)
          (before_label ops b).2 es.length
          (by rw [hl2, hc]; omega)
      rw [heq]
      refine ⟨by rw [hlen, hsz, hl2], by rw [hsz]; omega, ?_⟩
      intro j hj
      rw [hframe j (by omega), hpre2 j (by omega), hd1,
        byteAt_append_left (by omega)]

theorem emitList_inv (ops : Opcodes) : ∀ (es : ExprList) (b : OutputBuffer),
    b.data.length = b.size →
    (emitList ops es b).data.length = (emitList ops es b).size ∧
      b.size ≤ (emitList ops es b).size ∧
      (∀ j, j < b.size →
        byteAt (emitList ops es b).data j = byteAt b.data j)
  | .nil, b, hb => ⟨hb, le_refl _, fun _ _ => rfl⟩
  | .cons e rest, b, hb => by
      obtain ⟨hl1, hs1, hpre1⟩ := emitExpr_inv ops e b hb
      obtain ⟨hl2, hs2, hpre2⟩ := emitList_inv ops rest (emitExpr ops e b) hl1
      refine ⟨hl2, le_trans hs1 hs2, ?_⟩
      intro j hj
      show byteAt (emitList ops rest (emitExpr ops e b)).data j = _
      rw [hpre2 j (by omega), hpre1 j hj]
end

/-- The byte written by a region's close event: after emitting the
    children and patching, the placeholder holds the child count mod
    256. Shared by the backpatch theorems below. -/
theorem region_close_byte (ops : Opcodes) (es : ExprList)
    (b1 : OutputBuffer) (cookie : Nat) (h1 : b1.data.length = b1.size)
    (hc : cookie + 1 ≤ b1.size) :
    byteAt (out_u8_at (emitList ops es b1) cookie es.length).data cookie =
      es.length % 256 := by
  obtain ⟨hl2, hs2, _⟩ := emitList_inv ops es b1 h1
  exact (out_u8_at_spec (emitList ops es b1) cookie es.length
    (by rw [hl2]; omega)).1

/-- A chain of `n` one-byte leaf expressions. -/
def leafChain : Nat → ExprList
  | 0 => .nil
  | n + 1 => .cons (.leaf [0]) (leafChain n)

theorem leafChain_length : ∀ n : Nat, (leafChain n).length = n
  | 0 => rfl
  | n + 1 => by
      simp [leafChain, ExprList.length, leafChain_length n]
      omega

/-! ## Claim C4 (corrected: counts wrap modulo 256) -/

/-- C4, counterexample to the claim as stated: a block with 256 leaf
    expressions closes with expression count 256, but the byte at the
    returned handle offset is 0, not 256. -/
theorem region_backpatch_count_counterexample :
    (leafChain 256).length = 256 ∧
      (before_block sampleOpcodes ⟨[], 0⟩).2 = 1 ∧
      ¬ byteAt (emitExpr sampleOpcodes (Expr.block (leafChain 256))
          ⟨[], 0⟩).data (before_block sampleOpcodes ⟨[], 0⟩).2 = 256 := by
  have hb := before_block_spec sampleOpcodes ⟨[], 0⟩ rfl
  have h := region_close_byte sampleOpcodes (leafChain 256)
    (before_block sampleOpcodes ⟨[], 0⟩).1
    (before_block sampleOpcodes ⟨[], 0⟩).2 hb.2.2.2
    (by rw [hb.2.2.1, hb.2.1])
  refine ⟨leafChain_length 256, hb.2.2.1, ?_⟩
  have heq : emitExpr sampleOpcodes (Expr.block (leafChain 256)) ⟨[], 0⟩ =
      out_u8_at (emitList sampleOpcodes (leafChain 256)
        (before_block sampleOpcodes ⟨[], 0⟩).1)
        (before_block sampleOpcodes ⟨[], 0⟩).2 (leafChain 256).length := rfl
  rw [heq, h, leafChain_length 256]
  omega

/-- C4 (amended): each open event appends the region's opcode byte then a
    single zero placeholder byte whose offset is the returned handle
    (one past the opcode); after the matching close with `n` top-level
    child expressions, the byte at the handle equals `n % 256` — which
    is `n` itself whenever `n < 256`. -/
theorem region_backpatch_count (ops : Opcodes) (es : ExprList)
    (b : OutputBuffer) (hb : b.data.length = b.size) :
    ((before_block ops b).1.data = b.data ++ [ops.BLOCK % 256, 0] ∧
      (before_block ops b).2 = b.size + 1 ∧
      byteAt (emitExpr ops (Expr.block es) b).data (b.size + 1) =
        es.length % 256) ∧
    ((before_loop ops b).1.data = b.data ++ [ops.LOOP % 256, 0] ∧
      (before_loop ops b).2 = b.size + 1 ∧
      byteAt (emitExpr ops (Expr.loopE es) b).data (b.size + 1) =
        es.length % 256) ∧
    ((before_label ops b).1.data = b.data ++ [ops.BLOCK % 256, 0] ∧
      (before_label ops b).2 = b.size + 1 ∧
      byteAt (emitExpr ops (Expr.labelE es) b).data (b.size + 1) =
        es.length % 256) ∧
    (es.length < 256 →
      byteAt (emitExpr ops (Expr.block es) b).data (b.size + 1) =
        es.length) := by
  obtain ⟨hd1, hs1, hc1, hl1⟩ := before_block_spec ops b hb
  obtain ⟨hd2, hs2, hc2, hl2⟩ := before_loop_spec ops b hb
  obtain ⟨hd3, hs3, hc3, hl3⟩ := before_label_spec ops b hb
  have hblock : byteAt (emitExpr ops (Expr.block es) b).data (b.size + 1) =
      es.length % 256 := by
    have h := region_close_byte ops es (before_block ops b).1
      (before_block ops b).2 hl1 (by rw [hc1, hs1])
    rw [hc1] at h
    exact h
  have hloop : byteAt (emitExpr ops (Expr.loopE es) b).data (b.size + 1) =
      es.length % 256 := by
    have h := region_close_byte ops es (before_loop ops b).1
      (before_loop ops b).2 hl2 (by rw [hc2, hs2])
    rw [hc2] at h
    exact h
  have hlabel : byteAt (emitExpr ops (Expr.labelE es) b).data (b.size + 1) =
      es.length % 256 := by
    have h := region_close_byte ops es (before_label ops b).1
      (before_label ops b).2 hl3 (by rw [hc3, hs3])
    rw [hc3] at h
    exact h
  exact ⟨⟨hd1, hc1, hblock⟩, ⟨hd2, hc2, hloop⟩, ⟨hd3, hc3, hlabel⟩,
    fun hlt => by rw [hblock, Nat.mod_eq_of_lt hlt]⟩

/-- Witness for C4 (amended): a block of three leaves on the empty
    buffer stores 3 at handle offset 1. -/
theorem region_backpatch_count_witness :
    byteAt (emitExpr sampleOpcodes (Expr.block (leafChain 3))
        ⟨[], 0⟩).data 1 = 3 := by
  have h := (region_backpatch_count sampleOpcodes (leafChain 3)
    ⟨[], 0⟩ rfl).2.2.2 (by rw [leafChain_length]; omega)
  rw [leafChain_length] at h
  simpa using h

/-! ## Claim C5 -/

theorem intLowByte_lt (v : Int) : intLowByte v < 256 := by
  have h1 : v % 256 < 256 := Int.emod_lt_of_pos v (by omega)
  have h2 : 0 ≤ v % 256 := Int.emod_nonneg v (by omega)
  simp only [intLowByte]
  omega

/-- C5: a 32-bit integer literal with `-128 ≤ v < 127` emits the compact
    `I8_CONST` opcode plus one operand byte; every other value —
    including `v = 127` — emits the full-width opcode plus a 4-byte
    operand; `v = -128` is compact. -/
theorem after_const_i32_compaction (ops : Opcodes) (opcode : Nat) (v : Int)
    (b : OutputBuffer) (hb : b.data.length = b.size) :
    (after_const_i32 ops opcode v b).data =
        b.data ++ (if -128 ≤ v ∧ v < 127 then
          [ops.I8_CONST % 256, intLowByte v]
        else [opcode % 256] ++ u32le (i32ToNat v)) ∧
      (after_const_i32 ops opcode (-128) b).data =
        b.data ++ [ops.I8_CONST % 256, 128] ∧
      (after_const_i32 ops opcode 127 b).data =
        b.data ++ [opcode % 256] ++ u32le 127 := by
  have key : ∀ w : Int, (after_const_i32 ops opcode w b).data =
      b.data ++ (if -128 ≤ w ∧ w < 127 then
        [ops.I8_CONST % 256, intLowByte w]
      else [opcode % 256] ++ u32le (i32ToNat w)) := by
    intro w
    rw [after_const_i32]
    by_cases h : -128 ≤ w ∧ w < 127
    · rw [if_pos h, if_pos h]
      obtain ⟨h1, h2, h3⟩ := out_u8_spec b ops.I8_CONST hb
      obtain ⟨h4, h5, h6⟩ := out_u8_spec (out_u8 b ops.I8_CONST)
        (intLowByte w) h3
      show (out_u8 (out_u8 b ops.I8_CONST) (intLowByte w)).data = _
      rw [h4, h1, List.append_assoc,
        Nat.mod_eq_of_lt (intLowByte_lt w)]
      rfl
    · rw [if_neg h, if_neg h]
      obtain ⟨h1, h2, h3⟩ := out_u8_spec b opcode hb
      show (appendList (out_u8 b opcode) (u32le (i32ToNat w))).data = _
      rw [appendList_data _ h3, h1, List.append_assoc]
  have e1 : intLowByte (-128) = 128 := by decide
  have e2 : i32ToNat 127 = 127 := by decide
  refine ⟨key v, ?_, ?_⟩
  · rw [key (-128), if_pos (by norm_num), e1]
  · rw [key 127, if_neg (by norm_num), e2, List.append_assoc]

/-- Witness for C5 at `v = 0` (compact) on the empty buffer. -/
theorem after_const_i32_compaction_witness :
    (after_const_i32 sampleOpcodes 5 0 ⟨[], 0⟩).data = [9, 0] := by
  have h := (after_const_i32_compaction sampleOpcodes 5 0 ⟨[], 0⟩ rfl).1
  rw [h, if_pos (by norm_num)]
  decide

/-! ## Claim C6 -/

/-- C6: `before_if` records the offset of the opcode byte it is about to
    emit (the current end) and writes the alternate-absent `IF` opcode
    there; `after_if` with an alternate patches exactly that byte to
    `IF_THEN` (size and all other bytes unchanged); `after_if` without an
    alternate returns the buffer entirely unchanged. -/
theorem conditional_open_close_patch (ops : Opcodes) (b b2 : OutputBuffer)
    (hb : b.data.length = b.size) (hc : b.size + 1 ≤ b2.data.length) :
    (before_if ops b).2 = b.size ∧
      (before_if ops b).1.data = b.data ++ [ops.IF % 256] ∧
      (before_if ops b).1.size = b.size + 1 ∧
      after_if ops false (before_if ops b).2 b2 = b2 ∧
      (after_if ops true (before_if ops b).2 b2).size = b2.size ∧
      (after_if ops true (before_if ops b).2 b2).data.length =
        b2.data.length ∧
      byteAt (after_if ops true (before_if ops b).2 b2).data b.size =
        ops.IF_THEN % 256 ∧
      (∀ j, j ≠ b.size →
        byteAt (after_if ops true (before_if ops b).2 b2).data j =
          byteAt b2.data j) := by
  obtain ⟨h1, h2, h3⟩ := out_u8_spec b ops.IF hb
  have hcq : (before_if ops b).2 = b.size := rfl
  have hopen : (before_if ops b).1.data = b.data ++ [ops.IF % 256] := h1
  have hsz : (before_if ops b).1.size = b.size + 1 := h2
  have htrue : after_if ops true (before_if ops b).2 b2 =
      out_u8_at b2 b.size ops.IF_THEN := by
    simp [after_if, hcq]
  obtain ⟨p1, p2, p3, p4⟩ := out_u8_at_spec b2 b.size ops.IF_THEN (by omega)
  refine ⟨hcq, hopen, hsz, by simp [after_if], ?_, ?_, ?_, ?_⟩
  · rw [htrue, p2]
  · rw [htrue, p3]
  · rw [htrue]; exact p1
  · intro j hj
    rw [htrue]
    exact p4 j hj

/-- Witness for C6 on the empty buffer with a 2-byte close-time buffer. -/
theorem conditional_open_close_patch_witness :
    (before_if sampleOpcodes ⟨[], 0⟩).2 = 0 ∧
      after_if sampleOpcodes false 0 ⟨[3, 7], 2⟩ = ⟨[3, 7], 2⟩ ∧
      byteAt (after_if sampleOpcodes true 0 ⟨[3, 7], 2⟩).data 0 = 4 := by
  have h := conditional_open_close_patch sampleOpcodes ⟨[], 0⟩
    ⟨[3, 7], 2⟩ rfl (by decide)
  refine ⟨h.1, ?_, ?_⟩
  · have := h.2.2.2.1
    rw [h.1] at this
    exact this
  · have := h.2.2.2.2.2.2.1
    rw [h.1] at this
    simpa [sampleOpcodes] using this

/-! ## Claim C8 -/

/-- C8: a call to declared function `i` emits the `CALL` opcode followed
    by the LEB128 of `num_imports + i`; a call to import `j` emits the
    `CALL` opcode followed by the LEB128 of `j` unchanged. -/
theorem call_index_remapping (ops : Opcodes) (ni i j : Nat)
    (b : OutputBuffer) (hb : b.data.length = b.size) :
    (before_call ops ni i b).data =
        b.data ++ [ops.CALL % 256] ++ leb128 (ni + i) ∧
      (before_call_import ops j b).data =
        b.data ++ [ops.CALL % 256] ++ leb128 j := by
  obtain ⟨h1, h2, h3⟩ := out_u8_spec b ops.CALL hb
  constructor
  · show (appendList (out_u8 b ops.CALL) (leb128 (ni + i))).data = _
    rw [appendList_data _ h3, h1]
  · show (appendList (out_u8 b ops.CALL) (leb128 j)).data = _
    rw [appendList_data _ h3, h1]

/-- Witness for C8: with 2 imports, calling declared function 1 emits
    index 3; calling import 1 emits index 1. -/
theorem call_index_remapping_witness :
    (before_call sampleOpcodes 2 1 ⟨[], 0⟩).data = [12, 3] ∧
      (before_call_import sampleOpcodes 1 ⟨[], 0⟩).data = [12, 1] := by
  have h := call_index_remapping sampleOpcodes 2 1 1 ⟨[], 0⟩ rfl
  constructor
  · rw [h.1]
    simp [leb128, sampleOpcodes]
  · rw [h.2]
    simp [leb128, sampleOpcodes]

/-! ## Claim C10 -/

/-- C10: every expression-count placeholder is one byte, so a close event
    with count `n` stores `n % 256`: counts of 256 or more wrap silently
    (no check rejects them). Covers block/loop/label closes and the
    function's implicit top-level block patched by `after_function`. -/
theorem count_placeholder_truncation (hdrOff nargs n c : Nat)
    (b : OutputBuffer) (hc : c + 1 ≤ b.size) (hlen : b.data.length = b.size)
    (hdisj : hdrOff + FUNC_HEADER_CODE_END_OFFSET nargs + 4 ≤ c) :
    byteAt (after_block n c b).data c = n % 256 ∧
      byteAt (after_loop n c b).data c = n % 256 ∧
      byteAt (after_label n c b).data c = n % 256 ∧
      (after_block n c b).size = b.size ∧
      (after_block n c b).data.length = b.data.length ∧
      byteAt (after_function hdrOff nargs n c b).data c = n % 256 := by
  obtain ⟨p1, p2, p3, p4⟩ := out_u8_at_spec b c n (by omega)
  refine ⟨p1, p1, p1, p2, p3, ?_⟩
  show byteAt (out_u32_at (out_u8_at b c n)
    (hdrOff + FUNC_HEADER_CODE_END_OFFSET nargs)
    (out_u8_at b c n).size).data c = n % 256
  rw [show (out_u32_at (out_u8_at b c n) _ _).data =
    writeBytes (out_u8_at b c n).data
      (hdrOff + FUNC_HEADER_CODE_END_OFFSET nargs)
      (u32le (out_u8_at b c n).size) from rfl]
  rw [writeBytes_byteAt_right (by rw [u32le_length]; omega)
    (by rw [p3]; omega)]
  exact p1

/-- Witness for C10 at count 256: the stored byte is 0. -/
theorem count_placeholder_truncation_witness :
    byteAt (after_block 256 15 ⟨List.replicate 20 0, 20⟩).data 15 = 0 ∧
      byteAt (after_function 0 0 256 15 ⟨List.replicate 20 0, 20⟩).data 15 =
        0 := by
  have h := count_placeholder_truncation 0 0 256 15
    ⟨List.replicate 20 0, 20⟩ (by decide) (by simp) (by decide)
  exact ⟨by simpa using h.1, by simpa using h.2.2.2.2.2⟩

/-! ## Generic view of the footer loops

Both footer loops walk a run of header records laid out back to back,
patch one 4-byte field inside each visited record with the current
buffer end, and append that record's tail payload. -/

/-- One header record as seen by a footer loop: its size, the offset of
    the 4-byte field to patch (relative to the record start), whether a
    payload is emitted at all, and the payload bytes. -/
structure TailEntry where
  recordSize : Nat
  fieldDelta : Nat
  emit : Bool
  payload : List Nat

/-- The patch/append steps a footer loop performs, given the offset of
    the first record. -/
def genSteps : Nat → List TailEntry → List (Nat × List Nat)
  | _, [] => []
  | off, e :: rest =>
      (if e.emit then [(off + e.fieldDelta, e.payload)] else []) ++
        genSteps (off + e.recordSize) rest

/-- Total size of the walked records. -/
def genSize (entries : List TailEntry) : Nat :=
  (entries.map (fun e => e.recordSize)).sum

/-- Total bytes appended for the emitted payloads. -/
def genPayloadLen (entries : List TailEntry) : Nat :=
  (entries.map (fun e => if e.emit then e.payload.length else 0)).sum

theorem genSize_nil : genSize [] = 0 := rfl

theorem genSize_cons (e : TailEntry) (rest : List TailEntry) :
    genSize (e :: rest) = e.recordSize + genSize rest := by
  simp [genSize]

theorem genPayloadLen_cons (e : TailEntry) (rest : List TailEntry) :
    genPayloadLen (e :: rest) =
      (if e.emit then e.payload.length else 0) + genPayloadLen rest := by
  simp [genPayloadLen]

theorem genSteps_bounds :
    ∀ (entries : List TailEntry) (off : Nat),
      (∀ e ∈ entries, e.fieldDelta + 4 ≤ e.recordSize) →
      ∀ s ∈ genSteps off entries, off ≤ s.1 ∧ s.1 + 4 ≤ off + genSize entries
  | [], _, _, s, hs => by simp [genSteps] at hs
  | e :: rest, off, hfd, s, hs => by
      rw [genSteps] at hs
      rcases List.mem_append.mp hs with h | h
      · have he := hfd e (List.mem_cons_self _ _)
        by_cases hem : e.emit
        · simp only [hem, if_true, List.mem_singleton] at h
          subst h
          rw [genSize_cons]
          omega
        · simp [hem] at h
      · have := genSteps_bounds rest (off + e.recordSize)
          (fun x hx => hfd x (List.mem_cons_of_mem _ hx)) s h
        rw [genSize_cons]
        omega

theorem genSteps_sorted :
    ∀ (entries : List TailEntry) (off : Nat),
      (∀ e ∈ entries, e.fieldDelta + 4 ≤ e.recordSize) →
      (genSteps off entries).Pairwise (fun s t => s.1 + 4 ≤ t.1)
  | [], _, _ => List.Pairwise.nil
  | e :: rest, off, hfd => by
      rw [genSteps]
      have htail := genSteps_sorted rest (off + e.recordSize)
        (fun x hx => hfd x (List.mem_cons_of_mem _ hx))
      by_cases hem : e.emit
      · simp only [hem, if_true, List.singleton_append]
        refine List.Pairwise.cons ?_ htail
        intro t ht
        have := (genSteps_bounds rest (off + e.recordSize)
          (fun x hx => hfd x (List.mem_cons_of_mem _ hx)) t ht).1
        have := hfd e (List.mem_cons_self _ _)
        omega
      · simpa [hem] using htail

theorem genSteps_stepsLen :
    ∀ (entries : List TailEntry) (off : Nat),
      stepsLen (genSteps off entries) = genPayloadLen entries
  | [], _ => rfl
  | e :: rest, off => by
      rw [genSteps, genPayloadLen_cons]
      by_cases hem : e.emit = true
      · simp [hem, stepsLen_cons, genSteps_stepsLen rest (off + e.recordSize)]
      · simp [hem, genSteps_stepsLen rest (off + e.recordSize)]

/-- The core footer-loop lemma: after the loop, the patched field of the
    k-th visited record (when it emits) holds the little-endian offset
    at which its payload was appended, and the payload sits there
    verbatim. -/
theorem genLoop_spec :
    ∀ (entries : List TailEntry) (off : Nat) (b : OutputBuffer),
      b.data.length = b.size →
      (∀ e ∈ entries, e.fieldDelta + 4 ≤ e.recordSize) →
      off + genSize entries ≤ b.size →
      ∀ k (hk : k < entries.length), (entries.get ⟨k, hk⟩).emit = true →
        listSlice (patchAppendLoop b (genSteps off entries)).data
            (off + genSize (entries.take k) +
              (entries.get ⟨k, hk⟩).fieldDelta) 4 =
          u32le (b.size + genPayloadLen (entries.take k)) ∧
        listSlice (patchAppendLoop b (genSteps off entries)).data
            (b.size + genPayloadLen (entries.take k))
            (entries.get ⟨k, hk⟩).payload.length =
          (entries.get ⟨k, hk⟩).payload
  | e :: rest, off, b, hb, hfd, hsz, k, hk, hemit => by
      have hfde := hfd e (List.mem_cons_self _ _)
      have hfdrest : ∀ x ∈ rest, x.fieldDelta + 4 ≤ x.recordSize :=
        fun x hx => hfd x (List.mem_cons_of_mem _ hx)
      rw [genSize_cons] at hsz
      by_cases hem : e.emit
      · have hsteps : genSteps off (e :: rest) =
            (off + e.fieldDelta, e.payload) ::
              genSteps (off + e.recordSize) rest := by
          rw [genSteps, hem]
          simp
        have hin : ∀ s ∈ genSteps off (e :: rest), s.1 + 4 ≤ b.size := by
          intro s hs
          have := genSteps_bounds (e :: rest) off hfd s hs
          rw [genSize_cons] at this
          omega
        have hdisj : (genSteps off (e :: rest)).Pairwise
            (fun s t => s.1 + 4 ≤ t.1 ∨ t.1 + 4 ≤ s.1) :=
          (genSteps_sorted (e :: rest) off hfd).imp Or.inl
        match k with
        | 0 =>
            rw [hsteps] at hin hdisj ⊢
            have hfield := patchAppendLoop_field
              ((off + e.fieldDelta, e.payload) ::
                genSteps (off + e.recordSize) rest) b 0 (by simp)
              hb hin hdisj
            have hpay := patchAppendLoop_payload
              ((off + e.fieldDelta, e.payload) ::
                genSteps (off + e.recordSize) rest) b 0 (by simp)
              hb hin
            simp only [List.get, List.take, stepsLen_nil] at hfield hpay
            constructor
            · simpa [genSize_nil, genPayloadLen] using hfield
            · simpa [genSize_nil, genPayloadLen] using hpay
        | Nat.succ j =>
            have hj : j < rest.length := by simpa using hk
            set b1 := appendList
              (out_u32_at b (off + e.fieldDelta) b.size) e.payload with hb1
            have hstep := patchAppend_step (b := b) (p := off + e.fieldDelta)
              e.payload hb (by omega)
            have hlen1 : b1.data.length = b1.size := by
              rw [hb1, hstep.1, hstep.2.1, List.length_append, hstep.2.2]
            have hloop : patchAppendLoop b (genSteps off (e :: rest)) =
                patchAppendLoop b1 (genSteps (off + e.recordSize) rest) := by
              rw [hsteps, patchAppendLoop]
            have ih := genLoop_spec rest (off + e.recordSize) b1 hlen1
              hfdrest (by rw [hstep.2.1]; omega) j hj
              (by simpa using hemit)
            rw [hloop]
            have hget : (e :: rest).get ⟨j + 1, hk⟩ = rest.get ⟨j, hj⟩ := rfl
            have htake : (e :: rest).take (j + 1) = e :: rest.take j := rfl
            rw [hget, htake, genSize_cons, genPayloadLen_cons]
            have hs1 : b1.size = b.size + e.payload.length := hstep.2.1
            constructor
            · rw [show off + (e.recordSize + genSize (rest.take j)) +
                (rest.get ⟨j, hj⟩).fieldDelta =
                off + e.recordSize + genSize (rest.take j) +
                  (rest.get ⟨j, hj⟩).fieldDelta by ring]
              rw [(ih).1, hs1, hem]
              simp only [if_true]
              congr 1
              ring
            · rw [hem]
              simp only [if_true]
              rw [show b.size + (e.payload.length +
                genPayloadLen (rest.take j)) =
                b1.size + genPayloadLen (rest.take j) by rw [hs1]; ring]
              exact (ih).2
      · have hsteps : genSteps off (e :: rest) =
            genSteps (off + e.recordSize) rest := by
          rw [genSteps]
          simp [hem]
        match k with
        | 0 =>
            exact absurd hemit (by simpa using hem)
        | Nat.succ j =>
            have hj : j < rest.length := by simpa using hk
            have ih := genLoop_spec rest (off + e.recordSize) b hb
              hfdrest (by omega) j hj (by simpa using hemit)
            rw [hsteps]
            have hget : (e :: rest).get ⟨j + 1, hk⟩ = rest.get ⟨j, hj⟩ := rfl
            have htake : (e :: rest).take (j + 1) = e :: rest.take j := rfl
            rw [hget, htake, genSize_cons, genPayloadLen_cons]
            have hif : (if e.emit = true then e.payload.length else 0) = 0 :=
              by simp [hem]
            rw [hif]
            simp only [Nat.zero_add]
            constructor
            · rw [show off + (e.recordSize + genSize (rest.take j)) +
                (rest.get ⟨j, hj⟩).fieldDelta =
                off + e.recordSize + genSize (rest.take j) +
                  (rest.get ⟨j, hj⟩).fieldDelta by ring]
              exact (ih).1
            · exact (ih).2

/-! ## The footer loops as generic tail walks -/

/-- The segment headers as tail entries: 13-byte records, data-offset
    field at +4, payload always emitted. -/
def segEntries (m : WasmModule) : List TailEntry :=
  m.segments.map (fun s =>
    ⟨SEGMENT_HEADER_SIZE, SEGMENT_HEADER_DATA_OFFSET, true, s.data⟩)

/-- The import/function headers as tail entries: `24 + argc` byte
    records, name-offset field at `2 + argc`, emitting the
    null-terminated name (always for imports, only if exported for
    declared functions). -/
def nameGenEntries (m : WasmModule) : List TailEntry :=
  (nameEntries m).map (fun e =>
    ⟨FUNC_HEADER_SIZE e.1, FUNC_HEADER_NAME_OFFSET e.1, e.2.1, e.2.2 ++ [0]⟩)

theorem footerSegments_eq :
    ∀ (segs : List WasmSegment) (off : Nat) (b : OutputBuffer),
      footerSegments b
          ((headerOffsets off (segs.map fun _ => SEGMENT_HEADER_SIZE)).zip
            segs) =
        patchAppendLoop b (genSteps off (segs.map (fun s =>
          ⟨SEGMENT_HEADER_SIZE, SEGMENT_HEADER_DATA_OFFSET, true, s.data⟩)))
  | [], _, _ => rfl
  | s :: rest, off, b => by
      simp only [List.map_cons, headerOffsets, List.zip_cons_cons,
        footerSegments, genSteps, if_true, List.singleton_append,
        patchAppendLoop]
      exact footerSegments_eq rest (off + SEGMENT_HEADER_SIZE) _

theorem footerNames_eq :
    ∀ (entries : List (Nat × Bool × List Nat)) (off : Nat)
      (b : OutputBuffer),
      footerNames b off entries =
        patchAppendLoop b (genSteps off (entries.map (fun e =>
          ⟨FUNC_HEADER_SIZE e.1, FUNC_HEADER_NAME_OFFSET e.1, e.2.1,
            e.2.2 ++ [0]⟩)))
  | [], _, _ => rfl
  | (nargs, emit, name) :: rest, off, b => by
      by_cases hem : emit = true
      · simp only [List.map_cons, footerNames, genSteps, hem, if_true,
          List.singleton_append, patchAppendLoop]
        exact footerNames_eq rest (off + FUNC_HEADER_SIZE nargs) _
      · simp only [List.map_cons, footerNames, genSteps, hem, if_false,
          List.nil_append]
        exact footerNames_eq rest (off + FUNC_HEADER_SIZE nargs) _

theorem out_module_footer_eq (m : WasmModule) (b : OutputBuffer) :
    out_module_footer m b =
      patchAppendLoop
        (patchAppendLoop b (genSteps (segHeadersStart m) (segEntries m)))
        (genSteps (importHeadersStart m) (nameGenEntries m)) := by
  rw [out_module_footer, segment_header_offsets, footerSegments_eq,
    footerNames_eq]
  rfl

/-! ## Entry accounting for the two footer walks -/

/-- Total byte length of all segment payloads. -/
def totalSegLen (m : WasmModule) : Nat :=
  (m.segments.map (fun s => s.data.length)).sum

/-- Offset at which segment `i`'s payload begins, when the footer starts
    appending at `sz`. -/
def segPayloadStart (m : WasmModule) (sz i : Nat) : Nat :=
  sz + ((m.segments.take i).map (fun s => s.data.length)).sum

/-- Bytes of name table emitted for the first `k` imports. -/
def importNamesLen (m : WasmModule) (k : Nat) : Nat :=
  ((m.imports.take k).map (fun im => im.func_name.length + 1)).sum

/-- Bytes of name table emitted for the first `k` declared functions. -/
def funcNamesLen (m : WasmModule) (k : Nat) : Nat :=
  ((m.functions.take k).map
    (fun f => if f.exported then f.exported_name.length + 1 else 0)).sum

/-- Offset of import `k`'s header record. -/
def import_header_offset (m : WasmModule) (k : Nat) : Nat :=
  importHeadersStart m +
    ((m.imports.take k).map (fun im => FUNC_HEADER_SIZE im.args.length)).sum

theorem segEntries_hfd (m : WasmModule) :
    ∀ e ∈ segEntries m, e.fieldDelta + 4 ≤ e.recordSize := by
  intro e he
  simp only [segEntries, List.mem_map] at he
  obtain ⟨s, _, rfl⟩ := he
  simp [SEGMENT_HEADER_DATA_OFFSET, SEGMENT_HEADER_SIZE]

theorem nameGenEntries_eq (m : WasmModule) :
    nameGenEntries m =
      m.imports.map (fun im =>
        ⟨FUNC_HEADER_SIZE im.args.length,
          FUNC_HEADER_NAME_OFFSET im.args.length, true,
          im.func_name ++ [0]⟩) ++
      m.functions.map (fun f =>
        ⟨FUNC_HEADER_SIZE f.num_args, FUNC_HEADER_NAME_OFFSET f.num_args,
          f.exported, f.exported_name ++ [0]⟩) := by
  simp only [nameGenEntries, nameEntries, List.map_append, List.map_map]
  rfl

theorem nameGen_hfd (m : WasmModule) :
    ∀ e ∈ nameGenEntries m, e.fieldDelta + 4 ≤ e.recordSize := by
  intro e he
  rw [nameGenEntries_eq] at he
  rcases List.mem_append.mp he with h | h <;>
    · simp only [List.mem_map] at h
      obtain ⟨x, _, rfl⟩ := h
      simp [FUNC_HEADER_NAME_OFFSET, FUNC_SIG_SIZE, FUNC_HEADER_SIZE]
      omega

theorem nameGen_length (m : WasmModule) :
    (nameGenEntries m).length = m.imports.length + m.functions.length := by
  rw [nameGenEntries_eq]
  simp

theorem segEntries_genSize (m : WasmModule) :
    genSize (segEntries m) = m.segments.length * SEGMENT_HEADER_SIZE := by
  simp only [segEntries, genSize, List.map_map]
  simp [Function.comp_def, List.map_const']

theorem segEntries_genSize_take (m : WasmModule) (i : Nat)
    (hi : i ≤ m.segments.length) :
    genSize ((segEntries m).take i) = i * SEGMENT_HEADER_SIZE := by
  simp only [segEntries, ← List.map_take, genSize, List.map_map]
  simp only [Function.comp_def, List.map_const', List.sum_replicate,
    smul_eq_mul, List.length_take]
  congr 1
  omega

theorem segEntries_genPayloadLen_take (m : WasmModule) (i : Nat) :
    genPayloadLen ((segEntries m).take i) =
      ((m.segments.take i).map (fun s => s.data.length)).sum := by
  simp only [segEntries, ← List.map_take, genPayloadLen, List.map_map]
  simp [Function.comp_def]

theorem segEntries_genPayloadLen (m : WasmModule) :
    genPayloadLen (segEntries m) = totalSegLen m := by
  simp only [segEntries, genPayloadLen, totalSegLen, List.map_map]
  simp [Function.comp_def]

theorem nameGen_size_total (m : WasmModule) :
    importHeadersStart m + genSize (nameGenEntries m) = segHeadersStart m := by
  rw [nameGenEntries_eq]
  simp only [genSize, List.map_append, List.sum_append, List.map_map]
  simp only [segHeadersStart, funcHeadersStart]
  simp [Function.comp_def]
  ring

theorem nameGen_genSize_take_imports (m : WasmModule) (k : Nat)
    (hk : k ≤ m.imports.length) :
    genSize ((nameGenEntries m).take k) =
      ((m.imports.take k).map
        (fun im => FUNC_HEADER_SIZE im.args.length)).sum := by
  rw [nameGenEntries_eq,
    List.take_append_of_le_length (by simp [hk])]
  simp only [← List.map_take, genSize, List.map_map]
  simp [Function.comp_def]

theorem nameGen_genPayloadLen_take_imports (m : WasmModule) (k : Nat)
    (hk : k ≤ m.imports.length) :
    genPayloadLen ((nameGenEntries m).take k) = importNamesLen m k := by
  rw [nameGenEntries_eq,
    List.take_append_of_le_length (by simp [hk])]
  simp only [← List.map_take, genPayloadLen, importNamesLen, List.map_map]
  simp [Function.comp_def]

theorem nameGen_genSize_take_funcs (m : WasmModule) (k : Nat) :
    genSize ((nameGenEntries m).take (m.imports.length + k)) =
      (m.imports.map (fun im => FUNC_HEADER_SIZE im.args.length)).sum +
        ((m.functions.take k).map
          (fun f => FUNC_HEADER_SIZE f.num_args)).sum := by
  rw [nameGenEntries_eq]
  rw [show m.imports.length = (m.imports.map (fun im =>
    (⟨FUNC_HEADER_SIZE im.args.length,
      FUNC_HEADER_NAME_OFFSET im.args.length, true,
      im.func_name ++ [0]⟩ : TailEntry))).length by simp]
  rw [List.take_append]
  simp only [genSize, List.map_append, List.sum_append, List.map_map,
    ← List.map_take]
  simp [Function.comp_def]

theorem nameGen_genPayloadLen_take_funcs (m : WasmModule) (k : Nat) :
    genPayloadLen ((nameGenEntries m).take (m.imports.length + k)) =
      importNamesLen m m.imports.length + funcNamesLen m k := by
  rw [nameGenEntries_eq]
  rw [show m.imports.length = (m.imports.map (fun im =>
    (⟨FUNC_HEADER_SIZE im.args.length,
      FUNC_HEADER_NAME_OFFSET im.args.length, true,
      im.func_name ++ [0]⟩ : TailEntry))).length by simp]
  rw [List.take_append]
  simp only [genPayloadLen, importNamesLen, funcNamesLen, List.map_append,
    List.sum_append, List.map_map, ← List.map_take]
  congr 1
  · simp [Function.comp_def, List.take_length]
  · simp [Function.comp_def, List.length_append]

theorem nameGen_get_import (m : WasmModule) (k : Nat)
    (hk : k < m.imports.length)
    (hk2 : k < (nameGenEntries m).length) :
    (nameGenEntries m).get ⟨k, hk2⟩ =
      ⟨FUNC_HEADER_SIZE (m.imports.get ⟨k, hk⟩).args.length,
        FUNC_HEADER_NAME_OFFSET (m.imports.get ⟨k, hk⟩).args.length, true,
        (m.imports.get ⟨k, hk⟩).func_name ++ [0]⟩ := by
  rw [List.get_eq_getElem, List.get_eq_getElem]
  conv in nameGenEntries m => rw [nameGenEntries_eq]
  rw [List.getElem_append_left (by simpa using hk)]
  simp

theorem nameGen_get_func (m : WasmModule) (k : Nat)
    (hk : k < m.functions.length)
    (hk2 : m.imports.length + k < (nameGenEntries m).length) :
    (nameGenEntries m).get ⟨m.imports.length + k, hk2⟩ =
      ⟨FUNC_HEADER_SIZE (m.functions.get ⟨k, hk⟩).num_args,
        FUNC_HEADER_NAME_OFFSET (m.functions.get ⟨k, hk⟩).num_args,
        (m.functions.get ⟨k, hk⟩).exported,
        (m.functions.get ⟨k, hk⟩).exported_name ++ [0]⟩ := by
  rw [List.get_eq_getElem, List.get_eq_getElem]
  conv in nameGenEntries m => rw [nameGenEntries_eq]
  rw [List.getElem_append_right (by simp)]
  simp

theorem segEntries_get (m : WasmModule) (i : Nat)
    (hi : i < m.segments.length) (hi2 : i < (segEntries m).length) :
    (segEntries m).get ⟨i, hi2⟩ =
      ⟨SEGMENT_HEADER_SIZE, SEGMENT_HEADER_DATA_OFFSET, true,
        (m.segments.get ⟨i, hi⟩).data⟩ := by
  rw [List.get_eq_getElem, List.get_eq_getElem]
  simp [segEntries]

/-! ## Claim C7 -/

/-- C7: at module close the footer walks the data segments in
    declaration order, patching each segment header's data-offset field
    to the buffer length at that moment and appending the raw
    initializer bytes there — so each field holds the offset where its
    payload begins; afterwards it appends a null-terminated name for
    every import unconditionally and for every declared function exactly
    when exported, in declaration order, patching the header's
    name-offset field to the string's start offset. -/
theorem out_module_footer_fixups (m : WasmModule) (b : OutputBuffer)
    (hlen : b.data.length = b.size) (hsz : segHeadersEnd m ≤ b.size) :
    (∀ i (hi : i < m.segments.length) (off : Nat),
      (segment_header_offsets m)[i]? = some off →
      listSlice (out_module_footer m b).data
          (off + SEGMENT_HEADER_DATA_OFFSET) 4 =
        u32le (segPayloadStart m b.size i) ∧
      listSlice (out_module_footer m b).data (segPayloadStart m b.size i)
          (m.segments.get ⟨i, hi⟩).data.length =
        (m.segments.get ⟨i, hi⟩).data) ∧
    (∀ k (hk : k < m.imports.length),
      listSlice (out_module_footer m b).data
          (import_header_offset m k +
            FUNC_HEADER_NAME_OFFSET (m.imports.get ⟨k, hk⟩).args.length) 4 =
        u32le (b.size + totalSegLen m + importNamesLen m k) ∧
      listSlice (out_module_footer m b).data
          (b.size + totalSegLen m + importNamesLen m k)
          ((m.imports.get ⟨k, hk⟩).func_name.length + 1) =
        (m.imports.get ⟨k, hk⟩).func_name ++ [0]) ∧
    (∀ k (hk : k < m.functions.length) (off : Nat),
      (m.functions.get ⟨k, hk⟩).exported = true →
      (function_header_offsets m)[k]? = some off →
      listSlice (out_module_footer m b).data
          (off + FUNC_HEADER_NAME_OFFSET
            (m.functions.get ⟨k, hk⟩).num_args) 4 =
        u32le (b.size + totalSegLen m + importNamesLen m m.imports.length +
          funcNamesLen m k) ∧
      listSlice (out_module_footer m b).data
          (b.size + totalSegLen m + importNamesLen m m.imports.length +
            funcNamesLen m k)
          ((m.functions.get ⟨k, hk⟩).exported_name.length + 1) =
        (m.functions.get ⟨k, hk⟩).exported_name ++ [0]) := by
  have hfds := segEntries_hfd m
  have hfdn := nameGen_hfd m
  have hend : segHeadersEnd m =
      segHeadersStart m + m.segments.length * 13 := rfl
  have hszseg : segHeadersStart m + genSize (segEntries m) ≤ b.size := by
    rw [segEntries_genSize]
    show segHeadersStart m + m.segments.length * 13 ≤ b.size
    omega
  have hin_seg : ∀ s ∈ genSteps (segHeadersStart m) (segEntries m),
      s.1 + 4 ≤ b.size := by
    intro s hs
    have := genSteps_bounds (segEntries m) (segHeadersStart m) hfds s hs
    omega
  have hmid := patchAppendLoop_size
    (genSteps (segHeadersStart m) (segEntries m)) b hlen hin_seg
  set bmid := patchAppendLoop b
    (genSteps (segHeadersStart m) (segEntries m)) with hbmid
  have hmidsize : bmid.size = b.size + totalSegLen m := by
    rw [hmid.1, genSteps_stepsLen, segEntries_genPayloadLen]
  have hmidlen : bmid.data.length = bmid.size := hmid.2
  have hmidge : b.size ≤ bmid.size := by omega
  have hnametotal := nameGen_size_total m
  have hsegstart_le : segHeadersStart m ≤ segHeadersEnd m := by omega
  have hin_name : ∀ s ∈ genSteps (importHeadersStart m) (nameGenEntries m),
      s.1 + 4 ≤ bmid.size := by
    intro s hs
    have := genSteps_bounds (nameGenEntries m) (importHeadersStart m)
      hfdn s hs
    omega
  have hfin := patchAppendLoop_size
    (genSteps (importHeadersStart m) (nameGenEntries m)) bmid hmidlen
    hin_name
  have hr : out_module_footer m b =
      patchAppendLoop bmid
        (genSteps (importHeadersStart m) (nameGenEntries m)) :=
    out_module_footer_eq m b
  have hname_fit : importHeadersStart m + genSize (nameGenEntries m) ≤
      bmid.size := by omega
  have htrans : ∀ p n, segHeadersStart m ≤ p → p + n ≤ bmid.size →
      listSlice (out_module_footer m b).data p n =
        listSlice bmid.data p n := by
    intro p n hp hpn
    rw [hr]
    apply listSlice_eq_of_byteAt (by omega)
      (by rw [hfin.2, hfin.1]; omega)
    intro q hq
    apply patchAppendLoop_frame _ bmid (p + q) hmidlen hin_name (by omega)
    intro s hs
    have hbnd := genSteps_bounds (nameGenEntries m) (importHeadersStart m)
      hfdn s hs
    right
    omega
  refine ⟨?_, ?_, ?_⟩
  · -- segments
    intro i hi off hoff
    have hi2 : i < (segEntries m).length := by simpa [segEntries] using hi
    have hget := segEntries_get m i hi hi2
    have hspec := genLoop_spec (segEntries m) (segHeadersStart m) b hlen
      hfds hszseg i hi2 (by rw [hget])
    rw [hget] at hspec
    have htake13 :
        ((m.segments.map fun _ => SEGMENT_HEADER_SIZE).take i).sum =
          i * 13 := by
      rw [← List.map_take]
      simp only [List.map_const', List.sum_replicate, smul_eq_mul,
        List.length_take]
      have hmin : min i m.segments.length = i := by omega
      rw [hmin]
      rfl
    have hoff2 : off = segHeadersStart m + i * 13 := by
      rw [segment_header_offsets,
        headerOffsets_getElem? _ _ i (by simpa using hi), htake13] at hoff
      exact (Option.some.inj hoff).symm
    have hi13 : (i + 1) * 13 ≤ m.segments.length * 13 :=
      Nat.mul_le_mul_right _ (by omega)
    have hDO : SEGMENT_HEADER_DATA_OFFSET = 4 := rfl
    have hpaybound : segPayloadStart m b.size i +
        (m.segments.get ⟨i, hi⟩).data.length ≤ bmid.size := by
      have hsub := List.sum_take_succ
        (m.segments.map fun s => s.data.length) i (by simpa using hi)
      simp only [List.getElem_map] at hsub
      have hsplit : (m.segments.map fun s => s.data.length).sum =
          ((m.segments.map fun s => s.data.length).take (i + 1)).sum +
            ((m.segments.map fun s => s.data.length).drop (i + 1)).sum := by
        rw [← List.sum_append, List.take_append_drop]
      have htakemap : ((m.segments.map fun s => s.data.length).take i) =
          ((m.segments.take i).map fun s => s.data.length) :=
        (List.map_take _ _ _).symm
      rw [htakemap] at hsub
      have hgeteq : m.segments.get ⟨i, hi⟩ = m.segments[i] :=
        List.get_eq_getElem _ _
      rw [hgeteq]
      simp only [segPayloadStart, hmidsize, totalSegLen]
      omega
    constructor
    · rw [hoff2, htrans _ 4 (by omega) (by rw [hmidsize]; omega)]
      rw [show segHeadersStart m + i * 13 +
        SEGMENT_HEADER_DATA_OFFSET = segHeadersStart m +
          genSize ((segEntries m).take i) + SEGMENT_HEADER_DATA_OFFSET by
        rw [segEntries_genSize_take m i (by omega)]
        rfl]
      rw [show segPayloadStart m b.size i =
        b.size + genPayloadLen ((segEntries m).take i) by
        rw [segEntries_genPayloadLen_take, segPayloadStart]]
      exact hspec.1
    · rw [htrans _ (m.segments.get ⟨i, hi⟩).data.length
        (by simp only [segPayloadStart]; omega) hpaybound]
      rw [show segPayloadStart m b.size i =
        b.size + genPayloadLen ((segEntries m).take i) by
        rw [segEntries_genPayloadLen_take, segPayloadStart]]
      exact hspec.2
  · -- imports
    intro k hk
    have hk2 : k < (nameGenEntries m).length := by
      rw [nameGen_length]; omega
    have hget := nameGen_get_import m k hk hk2
    have hspec := genLoop_spec (nameGenEntries m) (importHeadersStart m)
      bmid hmidlen hfdn hname_fit k hk2 (by rw [hget])
    rw [hget] at hspec
    rw [hr]
    constructor
    · rw [show import_header_offset m k + FUNC_HEADER_NAME_OFFSET
        (m.imports.get ⟨k, hk⟩).args.length = importHeadersStart m +
          genSize ((nameGenEntries m).take k) + FUNC_HEADER_NAME_OFFSET
            (m.imports.get ⟨k, hk⟩).args.length by
        rw [nameGen_genSize_take_imports m k (by omega),
          import_header_offset]]
      rw [show b.size + totalSegLen m + importNamesLen m k =
        bmid.size + genPayloadLen ((nameGenEntries m).take k) by
        rw [nameGen_genPayloadLen_take_imports m k (by omega), hmidsize]]
      exact hspec.1
    · rw [show b.size + totalSegLen m + importNamesLen m k =
        bmid.size + genPayloadLen ((nameGenEntries m).take k) by
        rw [nameGen_genPayloadLen_take_imports m k (by omega), hmidsize]]
      rw [show (m.imports.get ⟨k, hk⟩).func_name.length + 1 =
        ((m.imports.get ⟨k, hk⟩).func_name ++ [0]).length by simp]
      exact hspec.2
  · -- declared functions
    intro k hk off hexp hoff
    have hk2 : m.imports.length + k < (nameGenEntries m).length := by
      rw [nameGen_length]; omega
    have hget := nameGen_get_func m k hk hk2
    have hspec := genLoop_spec (nameGenEntries m) (importHeadersStart m)
      bmid hmidlen hfdn hname_fit (m.imports.length + k) hk2
      (by rw [hget]; exact hexp)
    rw [hget] at hspec
    have hoff2 : off = funcHeadersStart m +
        ((m.functions.take k).map
          (fun f => FUNC_HEADER_SIZE f.num_args)).sum := by
      rw [function_header_offsets,
        headerOffsets_getElem? _ _ k (by simpa using hk),
        ← List.map_take] at hoff
      exact (Option.some.inj hoff).symm
    have hpos : off = importHeadersStart m +
        genSize ((nameGenEntries m).take (m.imports.length + k)) := by
      rw [hoff2, nameGen_genSize_take_funcs, funcHeadersStart]
      ring
    rw [hr]
    constructor
    · rw [hpos]
      rw [show b.size + totalSegLen m + importNamesLen m m.imports.length +
        funcNamesLen m k = bmid.size + genPayloadLen
          ((nameGenEntries m).take (m.imports.length + k)) by
        rw [nameGen_genPayloadLen_take_funcs, hmidsize]; ring]
      exact hspec.1
    · rw [show b.size + totalSegLen m + importNamesLen m m.imports.length +
        funcNamesLen m k = bmid.size + genPayloadLen
          ((nameGenEntries m).take (m.imports.length + k)) by
        rw [nameGen_genPayloadLen_take_funcs, hmidsize]; ring]
      rw [show (m.functions.get ⟨k, hk⟩).exported_name.length + 1 =
        ((m.functions.get ⟨k, hk⟩).exported_name ++ [0]).length by simp]
      exact hspec.2

/-- Witness for C7 on `sampleModule` with a 120-byte header/body prefix:
    segment 0's data-offset field (at 92+4) points at 120 where its four
    payload bytes land, and exported function 0's name lands at 127. -/
theorem out_module_footer_fixups_witness :
    listSlice (out_module_footer sampleModule
        ⟨List.replicate 120 0, 120⟩).data 96 4 = u32le 120 ∧
      listSlice (out_module_footer sampleModule
        ⟨List.replicate 120 0, 120⟩).data 120 4 = [1, 2, 3, 4] ∧
      listSlice (out_module_footer sampleModule
        ⟨List.replicate 120 0, 120⟩).data 127 2 = [109, 0] := by
  have h := out_module_footer_fixups sampleModule
    ⟨List.replicate 120 0, 120⟩ (by simp) (by decide)
  have hseg := h.1 0 (by decide) 92 (by decide)
  have hfun := h.2.2 0 (by decide) 40 (by decide) (by decide)
  have e1 : (92 : Nat) + SEGMENT_HEADER_DATA_OFFSET = 96 := rfl
  have e2 : segPayloadStart sampleModule 120 0 = 120 := by decide
  have e3 : (sampleModule.segments.get ⟨0, by decide⟩).data =
      [1, 2, 3, 4] := by decide
  have e4 : (120 : Nat) + totalSegLen sampleModule +
      importNamesLen sampleModule sampleModule.imports.length +
      funcNamesLen sampleModule 0 = 127 := by decide
  have e5 : (sampleModule.functions.get ⟨0, by decide⟩).exported_name =
      [109] := by decide
  refine ⟨?_, ?_, ?_⟩
  · have := hseg.1
    rw [e1, e2] at this
    exact this
  · have := hseg.2
    rw [e2, e3] at this
    exact this
  · have := hfun.2
    rw [e4, e5] at this
    exact this

/-! ## Claim C9 (corrected: the preamble is 8 bytes, counts little-endian) -/

/-- The end-to-end scenario module: no globals, no imports, one declared
    function (no arguments, no locals, exported as "main"), no
    segments, memory size 0. -/
def mainModule : WasmModule :=
  ⟨0, [], [], [⟨0, [], 0, true, [109, 97, 105, 110]⟩], []⟩

/-- The full event sequence for `mainModule`: module open (planner +
    header), function open, one no-op, function close with count 1,
    export event, module close (footer). -/
def emitScenario (ops : Opcodes) : OutputBuffer :=
  let hdrOff := (function_header_offsets mainModule).getD 0 0
  let b0 := moduleOpenBuffer mainModule
  let p := before_function ops hdrOff 0 b0
  let b2 := after_nop ops p.1
  let b3 := after_function hdrOff 0 1 p.2 b2
  let b4 := after_export hdrOff 0 b3
  out_module_footer mainModule b4

set_option maxHeartbeats 1000000 in
/-- The scenario image, byte by byte: 8 preamble bytes, the 24-byte
    function header with its patched fields, the 3-byte body, and the
    name tail. -/
theorem emitScenario_data (ops : Opcodes) :
    (emitScenario ops).data =
      [0, 1, 0, 0, 1, 0, 0, 0,
       0, 0, 35, 0, 0, 0, 32, 0, 0, 0, 35, 0, 0, 0,
       0, 0, 0, 0, 0, 0, 0, 0, 1, 0,
       ops.BLOCK % 256, 1, ops.NOP % 256,
       109, 97, 105, 110, 0] ∧
      (emitScenario ops).size = 40 := by
  have hunfold : emitScenario ops =
      out_module_footer mainModule (after_export 8 0 (after_function 8 0 1
        (before_function ops 8 0 (moduleOpenBuffer mainModule)).2
        (after_nop ops
          (before_function ops 8 0 (moduleOpenBuffer mainModule)).1))) := rfl
  have h1 : before_function ops 8 0 (moduleOpenBuffer mainModule) =
      (⟨[0, 1, 0, 0, 1, 0, 0, 0, 0, 0, 0, 0, 0, 0, 32, 0, 0, 0, 0, 0, 0, 0,
        0, 0, 0, 0, 0, 0, 0, 0, 0, 0, ops.BLOCK % 256, 0], 34⟩, 33) := rfl
  have h2 : after_nop ops
      (⟨[0, 1, 0, 0, 1, 0, 0, 0, 0, 0, 0, 0, 0, 0, 32, 0, 0, 0, 0, 0, 0, 0,
        0, 0, 0, 0, 0, 0, 0, 0, 0, 0, ops.BLOCK % 256, 0], 34⟩ :
        OutputBuffer) =
      ⟨[0, 1, 0, 0, 1, 0, 0, 0, 0, 0, 0, 0, 0, 0, 32, 0, 0, 0, 0, 0, 0, 0,
        0, 0, 0, 0, 0, 0, 0, 0, 0, 0, ops.BLOCK % 256, 0, ops.NOP % 256],
        35⟩ := rfl
  have h3a : out_u8_at
      (⟨[0, 1, 0, 0, 1, 0, 0, 0, 0, 0, 0, 0, 0, 0, 32, 0, 0, 0, 0, 0, 0, 0,
        0, 0, 0, 0, 0, 0, 0, 0, 0, 0, ops.BLOCK % 256, 0, ops.NOP % 256],
        35⟩ : OutputBuffer) 33 1 =
      ⟨[0, 1, 0, 0, 1, 0, 0, 0, 0, 0, 0, 0, 0, 0, 32, 0, 0, 0, 0, 0, 0, 0,
        0, 0, 0, 0, 0, 0, 0, 0, 0, 0, ops.BLOCK % 256, 1, ops.NOP % 256],
        35⟩ := rfl
  have h3b : out_u32_at
      (⟨[0, 1, 0, 0, 1, 0, 0, 0, 0, 0, 0, 0, 0, 0, 32, 0, 0, 0, 0, 0, 0, 0,
        0, 0, 0, 0, 0, 0, 0, 0, 0, 0, ops.BLOCK % 256, 1, ops.NOP % 256],
        35⟩ : OutputBuffer) 18 35 =
      ⟨[0, 1, 0, 0, 1, 0, 0, 0, 0, 0, 0, 0, 0, 0, 32, 0, 0, 0, 35, 0, 0, 0,
        0, 0, 0, 0, 0, 0, 0, 0, 0, 0, ops.BLOCK % 256, 1, ops.NOP % 256],
        35⟩ := rfl
  have h3 : after_function 8 0 1 33
      (⟨[0, 1, 0, 0, 1, 0, 0, 0, 0, 0, 0, 0, 0, 0, 32, 0, 0, 0, 0, 0, 0, 0,
        0, 0, 0, 0, 0, 0, 0, 0, 0, 0, ops.BLOCK % 256, 0, ops.NOP % 256],
        35⟩ : OutputBuffer) =
      ⟨[0, 1, 0, 0, 1, 0, 0, 0, 0, 0, 0, 0, 0, 0, 32, 0, 0, 0, 35, 0, 0, 0,
        0, 0, 0, 0, 0, 0, 0, 0, 0, 0, ops.BLOCK % 256, 1, ops.NOP % 256],
        35⟩ := by
    rw [after_function, h3a]
    exact h3b
  have h4 : after_export 8 0
      (⟨[0, 1, 0, 0, 1, 0, 0, 0, 0, 0, 0, 0, 0, 0, 32, 0, 0, 0, 35, 0, 0, 0,
        0, 0, 0, 0, 0, 0, 0, 0, 0, 0, ops.BLOCK % 256, 1, ops.NOP % 256],
        35⟩ : OutputBuffer) =
      ⟨[0, 1, 0, 0, 1, 0, 0, 0, 0, 0, 0, 0, 0, 0, 32, 0, 0, 0, 35, 0, 0, 0,
        0, 0, 0, 0, 0, 0, 0, 0, 1, 0, ops.BLOCK % 256, 1, ops.NOP % 256],
        35⟩ := rfl
  have h5a : out_u32_at
      (⟨[0, 1, 0, 0, 1, 0, 0, 0, 0, 0, 0, 0, 0, 0, 32, 0, 0, 0, 35, 0, 0, 0,
        0, 0, 0, 0, 0, 0, 0, 0, 1, 0, ops.BLOCK % 256, 1, ops.NOP % 256],
        35⟩ : OutputBuffer) 10 35 =
      ⟨[0, 1, 0, 0, 1, 0, 0, 0, 0, 0, 35, 0, 0, 0, 32, 0, 0, 0, 35, 0, 0, 0,
        0, 0, 0, 0, 0, 0, 0, 0, 1, 0, ops.BLOCK % 256, 1, ops.NOP % 256],
        35⟩ := rfl
  have h5b : out_cstr
      (⟨[0, 1, 0, 0, 1, 0, 0, 0, 0, 0, 35, 0, 0, 0, 32, 0, 0, 0, 35, 0, 0, 0,
        0, 0, 0, 0, 0, 0, 0, 0, 1, 0, ops.BLOCK % 256, 1, ops.NOP % 256],
        35⟩ : OutputBuffer) [109, 97, 105, 110] =
      ⟨[0, 1, 0, 0, 1, 0, 0, 0, 0, 0, 35, 0, 0, 0, 32, 0, 0, 0, 35, 0, 0, 0,
        0, 0, 0, 0, 0, 0, 0, 0, 1, 0, ops.BLOCK % 256, 1, ops.NOP % 256,
        109, 97, 105, 110, 0], 40⟩ := rfl
  have h5 : out_module_footer mainModule
      (⟨[0, 1, 0, 0, 1, 0, 0, 0, 0, 0, 0, 0, 0, 0, 32, 0, 0, 0, 35, 0, 0, 0,
        0, 0, 0, 0, 0, 0, 0, 0, 1, 0, ops.BLOCK % 256, 1, ops.NOP % 256],
        35⟩ : OutputBuffer) =
      ⟨[0, 1, 0, 0, 1, 0, 0, 0, 0, 0, 35, 0, 0, 0, 32, 0, 0, 0, 35, 0, 0, 0,
        0, 0, 0, 0, 0, 0, 0, 0, 1, 0, ops.BLOCK % 256, 1, ops.NOP % 256,
        109, 97, 105, 110, 0], 40⟩ := by
    have hu : out_module_footer mainModule
        (⟨[0, 1, 0, 0, 1, 0, 0, 0, 0, 0, 0, 0, 0, 0, 32, 0, 0, 0, 35, 0, 0,
          0, 0, 0, 0, 0, 0, 0, 0, 0, 1, 0, ops.BLOCK % 256, 1,
          ops.NOP % 256], 35⟩ : OutputBuffer) =
        out_cstr (out_u32_at
          (⟨[0, 1, 0, 0, 1, 0, 0, 0, 0, 0, 0, 0, 0, 0, 32, 0, 0, 0, 35, 0, 0,
            0, 0, 0, 0, 0, 0, 0, 0, 0, 1, 0, ops.BLOCK % 256, 1,
            ops.NOP % 256], 35⟩ : OutputBuffer) 10 35)
          [109, 97, 105, 110] := rfl
    rw [hu, h5a]
    exact h5b
  rw [hunfold, h1, h2, h3, h4, h5]
  exact ⟨rfl, rfl⟩

/-- C9, counterexample to the claim as stated: the image does not begin
    with the 6 bytes [0,1,0,1,0,0]; the three counts are 16-bit fields,
    so the preamble is 8 bytes and byte 3 is 0. -/
theorem end_to_end_scenario_counterexample :
    ¬ (emitScenario sampleOpcodes).data.take 6 = [0, 1, 0, 1, 0, 0] := by
  rw [(emitScenario_data sampleOpcodes).1]
  decide

/-- C9 (amended): the emitted image begins with the 8 preamble bytes
    `[0,1, 0,0, 1,0, 0,0]` (mem-size log2 0, export-mem 1, then the
    16-bit counts 0 globals / 1 function / 0 segments, little-endian);
    the single function header has export flag byte 1, its name-offset
    field holds 35 — the tail-table position of the null-terminated
    string "main" — and its code-start/code-end fields hold 32 and 35,
    bracketing exactly the implicit block opcode, its one-byte count 1,
    and the no-op opcode. -/
theorem end_to_end_scenario (ops : Opcodes) :
    (emitScenario ops).data.take 8 = [0, 1, 0, 0, 1, 0, 0, 0] ∧
      byteAt (emitScenario ops).data 30 = 1 ∧
      listSlice (emitScenario ops).data 10 4 = u32le 35 ∧
      listSlice (emitScenario ops).data 35 5 = [109, 97, 105, 110, 0] ∧
      listSlice (emitScenario ops).data 14 4 = u32le 32 ∧
      listSlice (emitScenario ops).data 18 4 = u32le 35 ∧
      listSlice (emitScenario ops).data 32 3 =
        [ops.BLOCK % 256, 1, ops.NOP % 256] ∧
      (emitScenario ops).size = 40 ∧
      (emitScenario ops).data.length = 40 := by
  obtain ⟨hd, hs⟩ := emitScenario_data ops
  rw [hd, hs]
  exact ⟨rfl, rfl, rfl, rfl, rfl, rfl, rfl, rfl, rfl⟩

end WasmGen
